import Mathlib

/-!
Verification development for the mini-db storage engine and MVCC layer.

The Rust sources are shallowly embedded: machine integers become `Nat`/`Int`
with explicit bounds, byte buffers become `List Nat`, fallible operations
return `Except`.  Definitions follow the source files under `src/`
(`storage/mvcc.rs`, `storage/bitcask.rs`, `utils/key_coder.rs`,
`cfg/mod.rs`, `db_error.rs`); deviations forced by the embedding are noted
at the definition they concern.
-/

namespace MiniDB

/-- Byte strings are lists of naturals; well-formed bytes are below 256. -/
abbrev Bytes := List Nat

/-- Lexicographic three-way comparison on byte strings, as Rust derives
`Ord` for `Vec<u8>` (shorter prefixes sort first). -/
def bytesCmp : Bytes → Bytes → Ordering
  | [], [] => .eq
  | [], _ :: _ => .lt
  | _ :: _, [] => .gt
  | a :: al, b :: bl => if a < b then .lt else if b < a then .gt else bytesCmp al bl

/-- Strict lexicographic order on byte strings. -/
def bytesLt (a b : Bytes) : Bool := bytesCmp a b == Ordering.lt

theorem bytesCmp_refl (a : Bytes) : bytesCmp a a = .eq := by
  induction a with
  | nil => rfl
  | cons x xs ih => simp [bytesCmp, ih]

theorem bytesCmp_eq_iff {a b : Bytes} : bytesCmp a b = .eq ↔ a = b := by
  induction a generalizing b with
  | nil => cases b <;> simp [bytesCmp]
  | cons x xs ih =>
    cases b with
    | nil => simp [bytesCmp]
    | cons y ys =>
      by_cases h1 : x < y
      · simp [bytesCmp, h1]
        omega
      · by_cases h2 : y < x
        · simp [bytesCmp, h1, h2]
          omega
        · have hxy : x = y := by omega
          simp [bytesCmp, h1, h2, hxy, ih]

theorem bytesCmp_swap (a b : Bytes) : bytesCmp b a = (bytesCmp a b).swap := by
  induction a generalizing b with
  | nil => cases b <;> rfl
  | cons x xs ih =>
    cases b with
    | nil => rfl
    | cons y ys =>
      by_cases h1 : x < y
      · have h2 : ¬ y < x := by omega
        simp [bytesCmp, h1, h2, Ordering.swap]
      · by_cases h2 : y < x
        · simp [bytesCmp, h1, h2, Ordering.swap]
        · simp [bytesCmp, h1, h2, ih]

theorem bytesLt_iff {a b : Bytes} : bytesLt a b = true ↔ bytesCmp a b = Ordering.lt := by
  unfold bytesLt
  cases bytesCmp a b <;> decide

theorem bytesLt_asymm {a b : Bytes} (h : bytesLt a b = true) : bytesLt b a = false := by
  have hc : bytesCmp a b = Ordering.lt := bytesLt_iff.mp h
  unfold bytesLt
  rw [bytesCmp_swap, hc]
  rfl

theorem bytesLt_irrefl (a : Bytes) : bytesLt a a = false := by
  unfold bytesLt
  rw [bytesCmp_refl]
  rfl

/-- Trichotomy for the byte order. -/
theorem bytesLt_trichotomy (a b : Bytes) :
    bytesLt a b = true ∨ a = b ∨ bytesLt b a = true := by
  rcases h : bytesCmp a b with _ | _ | _
  · left; unfold bytesLt; rw [h]; rfl
  · right; left; exact bytesCmp_eq_iff.mp h
  · right; right; unfold bytesLt; rw [bytesCmp_swap, h]; rfl

/- ## Big-endian fixed-width integer bytes (`to_be_bytes` in Rust) -/

/-- Big-endian byte encoding with fixed width `n`, most significant byte
first; high bits of `v` beyond the width are ignored, as Rust's
`to_be_bytes` presupposes the value fits the machine type. -/
def beBytes : Nat → Nat → Bytes
  | 0, _ => []
  | n + 1, v => (v / 256 ^ n) % 256 :: beBytes n v

theorem beBytes_length (n v : Nat) : (beBytes n v).length = n := by
  induction n generalizing v with
  | zero => rfl
  | succ n ih => simp [beBytes, ih]

theorem beBytes_mod (n v : Nat) : beBytes n (v % 256 ^ n) = beBytes n v := by
  induction n generalizing v with
  | zero => rfl
  | succ n ih =>
    have hhead : v % 256 ^ (n + 1) / 256 ^ n = v / 256 ^ n % 256 := by
      rw [pow_succ]
      exact Nat.mod_mul_right_div_self v (256 ^ n) 256
    have htail : beBytes n (v % 256 ^ (n + 1)) = beBytes n v := by
      have h1 : v % 256 ^ (n + 1) % 256 ^ n = v % 256 ^ n :=
        Nat.mod_mod_of_dvd v (pow_dvd_pow 256 (Nat.le_succ n))
      rw [← ih (v % 256 ^ (n + 1)), h1, ih v]
    show v % 256 ^ (n + 1) / 256 ^ n % 256 :: beBytes n (v % 256 ^ (n + 1)) =
      v / 256 ^ n % 256 :: beBytes n v
    rw [hhead, htail, Nat.mod_mod_of_dvd _ (dvd_refl 256)]

/-- Workhorse: comparing two big-endian encodings of the same width, each
followed by arbitrary suffixes, is deciding the numeric order, and on
equality the comparison passes to the suffixes. -/
theorem bytesCmp_beBytes_append {n v w : Nat} (hv : v < 256 ^ n) (hw : w < 256 ^ n)
    (r s : Bytes) :
    bytesCmp (beBytes n v ++ r) (beBytes n w ++ s) =
      if v = w then bytesCmp r s else if v < w then Ordering.lt else Ordering.gt := by
  induction n generalizing v w with
  | zero =>
    have hv0 : v = 0 := by simpa using hv
    have hw0 : w = 0 := by simpa using hw
    subst hv0; subst hw0
    simp [beBytes]
  | succ n ih =>
    have hpos : 0 < 256 ^ n := Nat.pos_pow_of_pos n (by norm_num)
    have hvd : v / 256 ^ n < 256 := Nat.div_lt_of_lt_mul (by
      calc v < 256 ^ (n + 1) := hv
        _ = 256 ^ n * 256 := by ring)
    have hwd : w / 256 ^ n < 256 := Nat.div_lt_of_lt_mul (by
      calc w < 256 ^ (n + 1) := hw
        _ = 256 ^ n * 256 := by ring)
    have hvmod : v / 256 ^ n % 256 = v / 256 ^ n := Nat.mod_eq_of_lt hvd
    have hwmod : w / 256 ^ n % 256 = w / 256 ^ n := Nat.mod_eq_of_lt hwd
    have hvsplit : 256 ^ n * (v / 256 ^ n) + v % 256 ^ n = v := Nat.div_add_mod v (256 ^ n)
    have hwsplit : 256 ^ n * (w / 256 ^ n) + w % 256 ^ n = w := Nat.div_add_mod w (256 ^ n)
    have hmv : v % 256 ^ n < 256 ^ n := Nat.mod_lt v hpos
    have hmw : w % 256 ^ n < 256 ^ n := Nat.mod_lt w hpos
    simp only [beBytes, List.cons_append, bytesCmp, hvmod, hwmod, List.append_eq]
    by_cases h1 : v / 256 ^ n < w / 256 ^ n
    · have hvw : v < w := by
        have hle : 256 ^ n * (v / 256 ^ n + 1) ≤ 256 ^ n * (w / 256 ^ n) :=
          Nat.mul_le_mul_left _ (by omega)
        have hexp : 256 ^ n * (v / 256 ^ n + 1) = 256 ^ n * (v / 256 ^ n) + 256 ^ n := by ring
        omega
      simp [h1, hvw, Nat.ne_of_lt hvw]
    · by_cases h2 : w / 256 ^ n < v / 256 ^ n
      · have hwv : w < v := by
          have hle : 256 ^ n * (w / 256 ^ n + 1) ≤ 256 ^ n * (v / 256 ^ n) :=
            Nat.mul_le_mul_left _ (by omega)
          have hexp : 256 ^ n * (w / 256 ^ n + 1) = 256 ^ n * (w / 256 ^ n) + 256 ^ n := by ring
          omega
        have hne : ¬ v = w := by omega
        have hnlt : ¬ v < w := by omega
        simp [h1, h2, hne, hnlt]
      · have hdeq : v / 256 ^ n = w / 256 ^ n := by omega
        have hcalc :
            bytesCmp (beBytes n v ++ r) (beBytes n w ++ s) =
              if v % 256 ^ n = w % 256 ^ n then bytesCmp r s
              else if v % 256 ^ n < w % 256 ^ n then Ordering.lt else Ordering.gt := by
          rw [← beBytes_mod n v, ← beBytes_mod n w]
          exact ih hmv hmw
        have hprod : 256 ^ n * (v / 256 ^ n) = 256 ^ n * (w / 256 ^ n) := by rw [hdeq]
        have heq_iff : (v % 256 ^ n = w % 256 ^ n) ↔ v = w := by omega
        have hlt_iff : (v % 256 ^ n < w % 256 ^ n) ↔ v < w := by omega
        rw [if_neg h1, if_neg h2, hcalc]
        by_cases he : v = w
        · rw [if_pos (heq_iff.mpr he), if_pos he]
        · rw [if_neg (fun hq => he (heq_iff.mp hq)), if_neg he]
          by_cases hl : v < w
          · rw [if_pos (hlt_iff.mpr hl), if_pos hl]
          · rw [if_neg (fun hq => hl (hlt_iff.mp hq)), if_neg hl]

/- ## Byte-string escaping (serialize_bytes, src/src/utils/key_coder.rs) -/

/-- Embeds the body of `KeyEncoder::serialize_bytes` without the
terminator: each `0x00` byte becomes `0x00 0xff`, others pass through. -/
def escape (b : Bytes) : Bytes :=
  b.flatMap fun x => if x = 0 then [0, 255] else [x]

/-- Embeds `KeyEncoder::serialize_bytes` (src/src/utils/key_coder.rs lines
181-189): escaped bytes followed by the `0x00 0x00` terminator. -/
def serBytes (b : Bytes) : Bytes := escape b ++ [0, 0]

/-- Workhorse: the escaped-and-terminated framing is order preserving and
self-delimiting; on equal payloads the comparison passes to the suffixes,
otherwise it is decided inside the framed region. -/
theorem bytesCmp_serBytes_append (a b r s : Bytes) :
    bytesCmp (serBytes a ++ r) (serBytes b ++ s) =
      if a = b then bytesCmp r s else bytesCmp a b := by
  induction a generalizing b with
  | nil =>
    cases b with
    | nil => simp [serBytes, escape, bytesCmp]
    | cons y ys =>
      by_cases hy : y = 0
      · subst hy
        simp [serBytes, escape, bytesCmp]
      · have hy0 : 0 < y := Nat.pos_of_ne_zero hy
        simp [serBytes, escape, bytesCmp, hy, hy0]
  | cons x xs ih =>
    cases b with
    | nil =>
      by_cases hx : x = 0
      · subst hx
        simp [serBytes, escape, bytesCmp]
      · have hx0 : 0 < x := Nat.pos_of_ne_zero hx
        simp [serBytes, escape, bytesCmp, hx, Nat.not_lt_of_lt hx0, hx0]
    | cons y ys =>
      by_cases hx : x = 0
      · by_cases hy : y = 0
        · subst hx; subst hy
          have harr1 : serBytes (0 :: xs) ++ r = 0 :: 255 :: (serBytes xs ++ r) := by
            simp [serBytes, escape]
          have harr2 : serBytes (0 :: ys) ++ s = 0 :: 255 :: (serBytes ys ++ s) := by
            simp [serBytes, escape]
          have hstep : bytesCmp (0 :: 255 :: (serBytes xs ++ r)) (0 :: 255 :: (serBytes ys ++ s)) =
              bytesCmp (serBytes xs ++ r) (serBytes ys ++ s) := by
            simp [bytesCmp]
          have hrhs : bytesCmp ((0 : Nat) :: xs) (0 :: ys) = bytesCmp xs ys := by
            simp [bytesCmp]
          rw [harr1, harr2, hstep, ih ys, hrhs]
          by_cases hxy : xs = ys
          · rw [if_pos hxy, if_pos (by rw [hxy])]
          · rw [if_neg hxy, if_neg (by simp [hxy])]
        · subst hx
          have hy0 : 0 < y := Nat.pos_of_ne_zero hy
          simp [serBytes, escape, bytesCmp, hy, hy0, Nat.ne_of_lt hy0]
      · by_cases hy : y = 0
        · subst hy
          have hx0 : 0 < x := Nat.pos_of_ne_zero hx
          simp [serBytes, escape, bytesCmp, hx, Nat.not_lt_of_lt hx0, hx0, Nat.ne_of_gt hx0]
        · by_cases hxy : x < y
          · simp [serBytes, escape, bytesCmp, hx, hy, hxy, Nat.ne_of_lt hxy,
              show x ≠ y from Nat.ne_of_lt hxy]
          · by_cases hyx : y < x
            · simp [serBytes, escape, bytesCmp, hx, hy, hxy, hyx,
                show x ≠ y from Nat.ne_of_gt hyx]
            · have hxyeq : x = y := by omega
              subst hxyeq
              have harr1 : serBytes (x :: xs) ++ r = x :: (serBytes xs ++ r) := by
                simp [serBytes, escape, hx]
              have harr2 : serBytes (x :: ys) ++ s = x :: (serBytes ys ++ s) := by
                simp [serBytes, escape, hx]
              have hstep : bytesCmp (x :: (serBytes xs ++ r)) (x :: (serBytes ys ++ s)) =
                  bytesCmp (serBytes xs ++ r) (serBytes ys ++ s) := by
                simp [bytesCmp]
              have hrhs : bytesCmp (x :: xs) (x :: ys) = bytesCmp xs ys := by
                simp [bytesCmp]
              rw [harr1, harr2, hstep, ih ys, hrhs]
              by_cases hxy2 : xs = ys
              · rw [if_pos hxy2, if_pos (by rw [hxy2])]
              · rw [if_neg hxy2, if_neg (by simp [hxy2])]

/- ## Key-codec value universe (src/src/utils/key_coder.rs)

Values of the types the key codec serializes.  Machine integers carry
their mathematical value (`Nat`/`Int`), floats carry their IEEE-754 bit
pattern as a `Nat` below `2^32`/`2^64` (the codec only permutes bits, so
the bit pattern is the faithful representation).  An n-ary tuple is
represented as right-nested `vpair`s: concatenation of element encodings
is associative, so the encoded bytes and the lexicographic order coincide
with the flat tuple.  `vunit` is the empty payload of a unit variant. -/

inductive KCV where
  | vbool (x : Bool)
  | vu8 (x : Nat)
  | vu16 (x : Nat)
  | vu32 (x : Nat)
  | vu64 (x : Nat)
  | vi8 (x : Int)
  | vi16 (x : Int)
  | vi32 (x : Int)
  | vi64 (x : Int)
  | vf32 (bits : Nat)
  | vf64 (bits : Nat)
  | vbytes (x : Bytes)
  | vunit
  | vpair (x y : KCV)
  | vvariant (idx : Nat) (x : KCV)
deriving DecidableEq

/-- Two values have the same Rust type shape.  Two variants of the same
enum may have different indices with unrelated payload types, so distinct
indices are always shape compatible. -/
def sameShape : KCV → KCV → Bool
  | .vbool _, .vbool _ => true
  | .vu8 _, .vu8 _ => true
  | .vu16 _, .vu16 _ => true
  | .vu32 _, .vu32 _ => true
  | .vu64 _, .vu64 _ => true
  | .vi8 _, .vi8 _ => true
  | .vi16 _, .vi16 _ => true
  | .vi32 _, .vi32 _ => true
  | .vi64 _, .vi64 _ => true
  | .vf32 _, .vf32 _ => true
  | .vf64 _, .vf64 _ => true
  | .vbytes _, .vbytes _ => true
  | .vunit, .vunit => true
  | .vpair a b, .vpair c d => sameShape a c && sameShape b d
  | .vvariant i a, .vvariant j b => if i = j then sameShape a b else true
  | _, _ => false

/-- Well-formedness: machine integers fit their width, float bit patterns
fit, byte strings hold bytes, variant indices fit `u8` (the source
converts the serde `u32` index with `try_into::<u8>()`). -/
def kcWF : KCV → Bool
  | .vbool _ => true
  | .vu8 x => x < 2 ^ 8
  | .vu16 x => x < 2 ^ 16
  | .vu32 x => x < 2 ^ 32
  | .vu64 x => x < 2 ^ 64
  | .vi8 x => -(2 ^ 7) ≤ x && x < 2 ^ 7
  | .vi16 x => -(2 ^ 15) ≤ x && x < 2 ^ 15
  | .vi32 x => -(2 ^ 31) ≤ x && x < 2 ^ 31
  | .vi64 x => -(2 ^ 63) ≤ x && x < 2 ^ 63
  | .vf32 p => p < 2 ^ 32
  | .vf64 p => p < 2 ^ 64
  | .vbytes bs => bs.all (fun c => c < 256)
  | .vunit => true
  | .vpair a b => kcWF a && kcWF b
  | .vvariant i a => decide (i < 256) && kcWF a

/-- Sign-magnitude transform the codec applies to a float bit pattern of
width `w` bits (`serialize_f64`, src/src/utils/key_coder.rs lines
161-171): a pattern with clear sign bit gets the sign bit flipped
(add `2^(w-1)`), a pattern with set sign bit has all bits inverted
(`2^w - 1 - p`). -/
def fKey (w : Nat) (p : Nat) : Nat :=
  if p < 2 ^ (w - 1) then p + 2 ^ (w - 1) else 2 ^ w - 1 - p

/-- The IEEE-754 total order (`totalOrder`, what Rust's `total_cmp`
implements) on bit patterns of width `w`: patterns with the sign bit set
sort below the rest in reversed bit-pattern order.  Under it
`-0.0 < +0.0` and NaN payloads are ordered by their bits. -/
def fTotalLt (w : Nat) (p q : Nat) : Bool :=
  if 2 ^ (w - 1) ≤ p then
    (if 2 ^ (w - 1) ≤ q then q < p else true)
  else
    (if 2 ^ (w - 1) ≤ q then false else p < q)

/-- NaN detector on a bit pattern: exponent bits (width `e`, below the
sign bit of a `w`-bit float) all ones and a nonzero mantissa. -/
def fIsNaN (w e : Nat) (p : Nat) : Bool :=
  (p / 2 ^ (w - 1 - e)) % 2 ^ e == 2 ^ e - 1 && p % 2 ^ (w - 1 - e) != 0

/-- Zero detector on a bit pattern: +0.0 or -0.0. -/
def fIsZero (w : Nat) (p : Nat) : Bool :=
  p == 0 || p == 2 ^ (w - 1)

/-- The IEEE-754 comparison `<` on bit patterns (Rust's `<` on floats):
false whenever either operand is NaN, the two zeros compare equal, and on
the remaining values it agrees with the total order. -/
def fIeeeLt (w e : Nat) (p q : Nat) : Bool :=
  !fIsNaN w e p && !fIsNaN w e q && !(fIsZero w p && fIsZero w q) && fTotalLt w p q

/-- Logical strict order on same-shaped codec values.  With
`total = true` floats are compared in the IEEE total order; with
`total = false` floats are compared with the IEEE `<` of the claim (under
which `-0.0` and `+0.0` are equal).  Pairs and variants are
lexicographic; variants compare by index first. -/
def kcLt (total : Bool) : KCV → KCV → Bool
  | .vbool x, .vbool y => !x && y
  | .vu8 x, .vu8 y => x < y
  | .vu16 x, .vu16 y => x < y
  | .vu32 x, .vu32 y => x < y
  | .vu64 x, .vu64 y => x < y
  | .vi8 x, .vi8 y => x < y
  | .vi16 x, .vi16 y => x < y
  | .vi32 x, .vi32 y => x < y
  | .vi64 x, .vi64 y => x < y
  | .vf32 p, .vf32 q => if total then fTotalLt 32 p q else fIeeeLt 32 8 p q
  | .vf64 p, .vf64 q => if total then fTotalLt 64 p q else fIeeeLt 64 11 p q
  | .vbytes a, .vbytes b => bytesLt a b
  | .vunit, .vunit => false
  | .vpair a b, .vpair c d => if a = c then kcLt total b d else kcLt total a c
  | .vvariant i a, .vvariant j b => if i = j then kcLt total a b else decide (i < j)
  | _, _ => false

/-- Embeds the `KeyEncoder` serializer (src/src/utils/key_coder.rs):
bool is one byte 0/1 (`serialize_bool`); unsigned integers are raw
big-endian bytes (`serialize_u8` … `serialize_u64`); signed integers are
big-endian with the sign bit flipped (`serialize_i8` and
`convert_first_bit`; for an in-range two's-complement value this equals
adding `2^(w-1)`); floats apply `fKey` to the bit pattern
(`serialize_f64`); byte strings are escaped and terminated
(`serialize_bytes`); tuple components are concatenated (`SerializeTuple`);
a variant is its index byte followed by the payload
(`serialize_unit_variant` / `serialize_newtype_variant`). -/
def kcEncode : KCV → Bytes
  | .vbool x => [if x then 1 else 0]
  | .vu8 x => beBytes 1 x
  | .vu16 x => beBytes 2 x
  | .vu32 x => beBytes 4 x
  | .vu64 x => beBytes 8 x
  | .vi8 x => beBytes 1 (Int.toNat (x + 2 ^ 7))
  | .vi16 x => beBytes 2 (Int.toNat (x + 2 ^ 15))
  | .vi32 x => beBytes 4 (Int.toNat (x + 2 ^ 31))
  | .vi64 x => beBytes 8 (Int.toNat (x + 2 ^ 63))
  | .vf32 p => beBytes 4 (fKey 32 p)
  | .vf64 p => beBytes 8 (fKey 64 p)
  | .vbytes bs => serBytes bs
  | .vunit => []
  | .vpair a b => kcEncode a ++ kcEncode b
  | .vvariant i a => i :: kcEncode a

theorem fKey_lt_iff {w : Nat} (hw : 1 ≤ w) {p q : Nat} (hp : p < 2 ^ w) (hq : q < 2 ^ w) :
    (fKey w p < fKey w q ↔ fTotalLt w p q = true) ∧ (fKey w p = fKey w q ↔ p = q) ∧
      fKey w p < 2 ^ w := by
  have hsplit : 2 ^ w = 2 ^ (w - 1) * 2 := by
    rw [← pow_succ]
    congr 1
    omega
  unfold fKey fTotalLt
  by_cases h1 : p < 2 ^ (w - 1) <;> by_cases h2 : q < 2 ^ (w - 1) <;>
    simp only [h1, h2, if_pos, if_neg, not_lt, ite_true, ite_false] <;>
    constructor <;> try constructor
  all_goals simp_all
  all_goals omega

theorem fTotalLt_irrefl (w p : Nat) : fTotalLt w p p = false := by
  unfold fTotalLt
  split <;> simp

theorem kcLt_irrefl (t : Bool) (p : KCV) : kcLt t p p = false := by
  induction p with
  | vbool x => cases x <;> rfl
  | vu8 x => simp [kcLt]
  | vu16 x => simp [kcLt]
  | vu32 x => simp [kcLt]
  | vu64 x => simp [kcLt]
  | vi8 x => simp [kcLt]
  | vi16 x => simp [kcLt]
  | vi32 x => simp [kcLt]
  | vi64 x => simp [kcLt]
  | vf32 p => cases t <;> simp [kcLt, fIeeeLt, fTotalLt_irrefl]
  | vf64 p => cases t <;> simp [kcLt, fIeeeLt, fTotalLt_irrefl]
  | vbytes bs => simp [kcLt, bytesLt_irrefl]
  | vunit => rfl
  | vpair a b iha ihb => simp [kcLt, ihb]
  | vvariant i a iha => simp [kcLt, iha]

/-- Master lemma for the key codec: comparing the encodings of two
same-shaped well-formed values, each followed by an arbitrary suffix,
decides the logical total order, and on equal values passes to the
suffixes.  In particular no encoding is a strict prefix of the encoding
of a different same-shaped value. -/
theorem kcEncode_cmp (p : KCV) : ∀ (q : KCV), sameShape p q = true → kcWF p = true →
    kcWF q = true → ∀ r s : Bytes,
    bytesCmp (kcEncode p ++ r) (kcEncode q ++ s) =
      if p = q then bytesCmp r s else if kcLt true p q then Ordering.lt else Ordering.gt := by
  induction p with
  | vbool x =>
    intro q hs hp hq r s
    cases q
    case vbool y =>
      cases x <;> cases y <;> simp [kcEncode, bytesCmp, kcLt]
    all_goals (exfalso; simp [sameShape] at hs)
  | vu8 x =>
    intro q hs hp hq r s
    cases q
    case vu8 y =>
      have hx : x < 256 ^ 1 := by have := hp; simp [kcWF] at this; norm_num; exact this
      have hy : y < 256 ^ 1 := by have := hq; simp [kcWF] at this; norm_num; exact this
      simp only [kcEncode]
      rw [bytesCmp_beBytes_append hx hy]
      by_cases hxy : x = y
      · simp [hxy]
      · simp [hxy, kcLt]
    all_goals (exfalso; simp [sameShape] at hs)
  | vu16 x =>
    intro q hs hp hq r s
    cases q
    case vu16 y =>
      have hx : x < 256 ^ 2 := by have := hp; simp [kcWF] at this; norm_num; exact this
      have hy : y < 256 ^ 2 := by have := hq; simp [kcWF] at this; norm_num; exact this
      simp only [kcEncode]
      rw [bytesCmp_beBytes_append hx hy]
      by_cases hxy : x = y
      · simp [hxy]
      · simp [hxy, kcLt]
    all_goals (exfalso; simp [sameShape] at hs)
  | vu32 x =>
    intro q hs hp hq r s
    cases q
    case vu32 y =>
      have hx : x < 256 ^ 4 := by have := hp; simp [kcWF] at this; norm_num; exact this
      have hy : y < 256 ^ 4 := by have := hq; simp [kcWF] at this; norm_num; exact this
      simp only [kcEncode]
      rw [bytesCmp_beBytes_append hx hy]
      by_cases hxy : x = y
      · simp [hxy]
      · simp [hxy, kcLt]
    all_goals (exfalso; simp [sameShape] at hs)
  | vu64 x =>
    intro q hs hp hq r s
    cases q
    case vu64 y =>
      have hx : x < 256 ^ 8 := by have := hp; simp [kcWF] at this; norm_num; exact this
      have hy : y < 256 ^ 8 := by have := hq; simp [kcWF] at this; norm_num; exact this
      simp only [kcEncode]
      rw [bytesCmp_beBytes_append hx hy]
      by_cases hxy : x = y
      · simp [hxy]
      · simp [hxy, kcLt]
    all_goals (exfalso; simp [sameShape] at hs)
  | vi8 x =>
    intro q hs hp hq r s
    cases q
    case vi8 y =>
      have hxb : -(2 ^ 7) ≤ x ∧ x < 2 ^ 7 := by
        have := hp; simp [kcWF] at this; exact this
      have hyb : -(2 ^ 7) ≤ y ∧ y < 2 ^ 7 := by
        have := hq; simp [kcWF] at this; exact this
      have hx : Int.toNat (x + 2 ^ 7) < 256 ^ 1 := by norm_num; omega
      have hy : Int.toNat (y + 2 ^ 7) < 256 ^ 1 := by norm_num; omega
      have heqi : (Int.toNat (x + 2 ^ 7) = Int.toNat (y + 2 ^ 7)) ↔ x = y := by omega
      have hlti : (Int.toNat (x + 2 ^ 7) < Int.toNat (y + 2 ^ 7)) ↔ x < y := by omega
      simp only [kcEncode]
      rw [bytesCmp_beBytes_append hx hy]
      by_cases hxy : x = y
      · rw [if_pos (heqi.mpr hxy)]
        simp [hxy]
      · rw [if_neg (fun hq2 => hxy (heqi.mp hq2))]
        simp only [KCV.vi8.injEq, hxy, if_false, kcLt]
        by_cases hl : x < y
        · rw [if_pos (hlti.mpr hl)]
          simp [hl]
        · rw [if_neg (fun hq2 => hl (hlti.mp hq2))]
          simp [hl]
    all_goals (exfalso; simp [sameShape] at hs)
  | vi16 x =>
    intro q hs hp hq r s
    cases q
    case vi16 y =>
      have hxb : -(2 ^ 15) ≤ x ∧ x < 2 ^ 15 := by
        have := hp; simp [kcWF] at this; exact this
      have hyb : -(2 ^ 15) ≤ y ∧ y < 2 ^ 15 := by
        have := hq; simp [kcWF] at this; exact this
      have hx : Int.toNat (x + 2 ^ 15) < 256 ^ 2 := by norm_num; omega
      have hy : Int.toNat (y + 2 ^ 15) < 256 ^ 2 := by norm_num; omega
      have heqi : (Int.toNat (x + 2 ^ 15) = Int.toNat (y + 2 ^ 15)) ↔ x = y := by omega
      have hlti : (Int.toNat (x + 2 ^ 15) < Int.toNat (y + 2 ^ 15)) ↔ x < y := by omega
      simp only [kcEncode]
      rw [bytesCmp_beBytes_append hx hy]
      by_cases hxy : x = y
      · rw [if_pos (heqi.mpr hxy)]
        simp [hxy]
      · rw [if_neg (fun hq2 => hxy (heqi.mp hq2))]
        simp only [KCV.vi16.injEq, hxy, if_false, kcLt]
        by_cases hl : x < y
        · rw [if_pos (hlti.mpr hl)]
          simp [hl]
        · rw [if_neg (fun hq2 => hl (hlti.mp hq2))]
          simp [hl]
    all_goals (exfalso; simp [sameShape] at hs)
  | vi32 x =>
    intro q hs hp hq r s
    cases q
    case vi32 y =>
      have hxb : -(2 ^ 31) ≤ x ∧ x < 2 ^ 31 := by
        have := hp; simp [kcWF] at this; exact this
      have hyb : -(2 ^ 31) ≤ y ∧ y < 2 ^ 31 := by
        have := hq; simp [kcWF] at this; exact this
      have hx : Int.toNat (x + 2 ^ 31) < 256 ^ 4 := by norm_num; omega
      have hy : Int.toNat (y + 2 ^ 31) < 256 ^ 4 := by norm_num; omega
      have heqi : (Int.toNat (x + 2 ^ 31) = Int.toNat (y + 2 ^ 31)) ↔ x = y := by omega
      have hlti : (Int.toNat (x + 2 ^ 31) < Int.toNat (y + 2 ^ 31)) ↔ x < y := by omega
      simp only [kcEncode]
      rw [bytesCmp_beBytes_append hx hy]
      by_cases hxy : x = y
      · rw [if_pos (heqi.mpr hxy)]
        simp [hxy]
      · rw [if_neg (fun hq2 => hxy (heqi.mp hq2))]
        simp only [KCV.vi32.injEq, hxy, if_false, kcLt]
        by_cases hl : x < y
        · rw [if_pos (hlti.mpr hl)]
          simp [hl]
        · rw [if_neg (fun hq2 => hl (hlti.mp hq2))]
          simp [hl]
    all_goals (exfalso; simp [sameShape] at hs)
  | vi64 x =>
    intro q hs hp hq r s
    cases q
    case vi64 y =>
      have hxb : -(2 ^ 63) ≤ x ∧ x < 2 ^ 63 := by
        have := hp; simp [kcWF] at this; exact this
      have hyb : -(2 ^ 63) ≤ y ∧ y < 2 ^ 63 := by
        have := hq; simp [kcWF] at this; exact this
      have hx : Int.toNat (x + 2 ^ 63) < 256 ^ 8 := by norm_num; omega
      have hy : Int.toNat (y + 2 ^ 63) < 256 ^ 8 := by norm_num; omega
      have heqi : (Int.toNat (x + 2 ^ 63) = Int.toNat (y + 2 ^ 63)) ↔ x = y := by omega
      have hlti : (Int.toNat (x + 2 ^ 63) < Int.toNat (y + 2 ^ 63)) ↔ x < y := by omega
      simp only [kcEncode]
      rw [bytesCmp_beBytes_append hx hy]
      by_cases hxy : x = y
      · rw [if_pos (heqi.mpr hxy)]
        simp [hxy]
      · rw [if_neg (fun hq2 => hxy (heqi.mp hq2))]
        simp only [KCV.vi64.injEq, hxy, if_false, kcLt]
        by_cases hl : x < y
        · rw [if_pos (hlti.mpr hl)]
          simp [hl]
        · rw [if_neg (fun hq2 => hl (hlti.mp hq2))]
          simp [hl]
    all_goals (exfalso; simp [sameShape] at hs)
  | vf32 pb =>
    intro q hs hp hq r s
    cases q
    case vf32 qb =>
      have hpw : pb < 2 ^ 32 := by have := hp; simp [kcWF] at this; exact this
      have hqw : qb < 2 ^ 32 := by have := hq; simp [kcWF] at this; exact this
      obtain ⟨hlt1, heq1, hb1⟩ := fKey_lt_iff (w := 32) (by norm_num) hpw hqw
      obtain ⟨_, _, hb2⟩ := fKey_lt_iff (w := 32) (by norm_num) hqw hpw
      have hx : fKey 32 pb < 256 ^ 4 := by norm_num at hb1 ⊢; exact hb1
      have hy : fKey 32 qb < 256 ^ 4 := by norm_num at hb2 ⊢; exact hb2
      simp only [kcEncode]
      rw [bytesCmp_beBytes_append hx hy]
      by_cases hxy : pb = qb
      · rw [if_pos (heq1.mpr hxy)]
        simp [hxy]
      · rw [if_neg (fun hq2 => hxy (heq1.mp hq2))]
        simp only [KCV.vf32.injEq, hxy, if_false, kcLt, if_true]
        by_cases hl : fTotalLt 32 pb qb = true
        · rw [if_pos (hlt1.mpr hl)]
          simp [hl]
        · rw [if_neg (fun hq2 => hl (hlt1.mp hq2))]
          simp [hl]
    all_goals (exfalso; simp [sameShape] at hs)
  | vf64 pb =>
    intro q hs hp hq r s
    cases q
    case vf64 qb =>
      have hpw : pb < 2 ^ 64 := by have := hp; simp [kcWF] at this; exact this
      have hqw : qb < 2 ^ 64 := by have := hq; simp [kcWF] at this; exact this
      obtain ⟨hlt1, heq1, hb1⟩ := fKey_lt_iff (w := 64) (by norm_num) hpw hqw
      obtain ⟨_, _, hb2⟩ := fKey_lt_iff (w := 64) (by norm_num) hqw hpw
      have hx : fKey 64 pb < 256 ^ 8 := by norm_num at hb1 ⊢; exact hb1
      have hy : fKey 64 qb < 256 ^ 8 := by norm_num at hb2 ⊢; exact hb2
      simp only [kcEncode]
      rw [bytesCmp_beBytes_append hx hy]
      by_cases hxy : pb = qb
      · rw [if_pos (heq1.mpr hxy)]
        simp [hxy]
      · rw [if_neg (fun hq2 => hxy (heq1.mp hq2))]
        simp only [KCV.vf64.injEq, hxy, if_false, kcLt, if_true]
        by_cases hl : fTotalLt 64 pb qb = true
        · rw [if_pos (hlt1.mpr hl)]
          simp [hl]
        · rw [if_neg (fun hq2 => hl (hlt1.mp hq2))]
          simp [hl]
    all_goals (exfalso; simp [sameShape] at hs)
  | vbytes bs =>
    intro q hs hp hq r s
    cases q
    case vbytes cs =>
      simp only [kcEncode]
      rw [bytesCmp_serBytes_append]
      by_cases hxy : bs = cs
      · simp [hxy]
      · simp only [KCV.vbytes.injEq, hxy, if_false, kcLt]
        rcases hc : bytesCmp bs cs with _ | _ | _
        · have : bytesLt bs cs = true := bytesLt_iff.mpr hc
          simp [this]
        · exact absurd (bytesCmp_eq_iff.mp hc) hxy
        · have : bytesLt bs cs = false := by
            unfold bytesLt
            rw [hc]
            rfl
          simp [this]
    all_goals (exfalso; simp [sameShape] at hs)
  | vunit =>
    intro q hs hp hq r s
    cases q
    case vunit => simp [kcEncode]
    all_goals (exfalso; simp [sameShape] at hs)
  | vpair a b iha ihb =>
    intro q hs hp hq r s
    cases q
    case vpair c d =>
      have hsx : sameShape a c = true ∧ sameShape b d = true := by
        have := hs; simp [sameShape] at this; exact this
      have hpx : kcWF a = true ∧ kcWF b = true := by
        have := hp; simp [kcWF] at this; exact this
      have hqx : kcWF c = true ∧ kcWF d = true := by
        have := hq; simp [kcWF] at this; exact this
      simp only [kcEncode, List.append_assoc]
      rw [iha c hsx.1 hpx.1 hqx.1 (kcEncode b ++ r) (kcEncode d ++ s)]
      by_cases hac : a = c
      · rw [if_pos hac, ihb d hsx.2 hpx.2 hqx.2 r s]
        by_cases hbd : b = d
        · simp [hac, hbd]
        · simp [KCV.vpair.injEq, hac, hbd, kcLt]
      · simp [KCV.vpair.injEq, hac, kcLt]
    all_goals (exfalso; simp [sameShape] at hs)
  | vvariant i a iha =>
    intro q hs hp hq r s
    cases q
    case vvariant j b =>
      have hpx : i < 256 ∧ kcWF a = true := by
        have := hp; simp [kcWF] at this; exact this
      have hqx : j < 256 ∧ kcWF b = true := by
        have := hq; simp [kcWF] at this; exact this
      simp only [kcEncode, List.cons_append, bytesCmp, List.append_eq]
      by_cases hij : i = j
      · subst hij
        have hsx : sameShape a b = true := by
          have := hs; simp [sameShape] at this; exact this
        rw [if_neg (lt_irrefl i), if_neg (lt_irrefl i)]
        rw [iha b hsx hpx.2 hqx.2 r s]
        by_cases hab : a = b
        · simp [hab]
        · simp [KCV.vvariant.injEq, hab, kcLt]
      · by_cases hlt : i < j
        · rw [if_pos hlt]
          simp [KCV.vvariant.injEq, hij, kcLt, hlt]
        · have hgt : j < i := by omega
          rw [if_neg hlt, if_pos hgt]
          simp [KCV.vvariant.injEq, hij, kcLt, hlt]
    all_goals (exfalso; simp [sameShape] at hs)

/- ## Key-codec decoder (KeyDecoder, src/src/utils/key_coder.rs) -/

/-- Type shapes the key codec can be asked to decode at.  A variant type
carries the payload types of all its variants in declaration order. -/
inductive KCType where
  | tb
  | tu8
  | tu16
  | tu32
  | tu64
  | ti8
  | ti16
  | ti32
  | ti64
  | tf32
  | tf64
  | tbytes
  | tunit
  | tpair (t1 t2 : KCType)
  | tvariant (ts : List KCType)

/-- A value inhabits a type shape; a variant value inhabits the enum whose
payload type at its index matches its payload. -/
def hasType : KCV → KCType → Bool
  | .vbool _, .tb => true
  | .vu8 _, .tu8 => true
  | .vu16 _, .tu16 => true
  | .vu32 _, .tu32 => true
  | .vu64 _, .tu64 => true
  | .vi8 _, .ti8 => true
  | .vi16 _, .ti16 => true
  | .vi32 _, .ti32 => true
  | .vi64 _, .ti64 => true
  | .vf32 _, .tf32 => true
  | .vf64 _, .tf64 => true
  | .vbytes _, .tbytes => true
  | .vunit, .tunit => true
  | .vpair a b, .tpair t1 t2 => hasType a t1 && hasType b t2
  | .vvariant i a, .tvariant ts =>
    match ts[i]? with
    | some t => hasType a t
    | none => false
  | _, _ => false

mutual

/-- Type shapes whose decoder actually works in the source: bool, i64,
f64, byte strings, unit, and pairs/variants of these.  The deserializers
for u8 through u64 are `unimplemented!()`, and those for i8/i16/i32/f32
read eight bytes and then fail the narrower `try_into`, so none of those
shapes can be decoded. -/
def decSupported : KCType → Bool
  | .tb => true
  | .ti64 => true
  | .tf64 => true
  | .tbytes => true
  | .tunit => true
  | .tpair t1 t2 => decSupported t1 && decSupported t2
  | .tvariant ts => decSupportedList ts
  | _ => false

def decSupportedList : List KCType → Bool
  | [] => true
  | t :: ts => decSupported t && decSupportedList ts

end

/-- Embeds `KeyDecoder::take_bytes` (src/src/utils/key_coder.rs lines
381-388); the Rust code panics when fewer than `len` bytes remain, which
the embedding reports as an error. -/
def takeBytes (n : Nat) (l : Bytes) : Except Unit (Bytes × Bytes) :=
  if n ≤ l.length then .ok (l.take n, l.drop n) else .error ()

/-- Big-endian value of a byte string (`from_be_bytes`). -/
def beVal (bs : Bytes) : Nat := bs.foldl (fun a c => a * 256 + c) 0

/-- Embeds `KeyDecoder::decode_next_bytes` (src/src/utils/key_coder.rs
lines 391-407): un-escape `0x00 0xff` to `0x00`, stop at `0x00 0x00`, and
fail on a dangling `0x00` or missing terminator. -/
def decodeNextBytes : Bytes → Except Unit (Bytes × Bytes)
  | [] => .error ()
  | b :: rest =>
    if b = 0 then
      match rest with
      | [] => .error ()
      | c :: rest2 =>
        if c = 0 then .ok ([], rest2)
        else if c = 255 then
          match decodeNextBytes rest2 with
          | .ok (v, r) => .ok (0 :: v, r)
          | .error e => .error e
        else .error ()
    else
      match decodeNextBytes rest with
      | .ok (v, r) => .ok (b :: v, r)
      | .error e => .error e

/-- Embeds the `KeyDecoder` deserializer (src/src/utils/key_coder.rs
lines 411-707), driven by the target type as serde does.  `deserialize_u8`
through `deserialize_u64` are `unimplemented!()` (panic, modelled as an
error); `deserialize_i8`/`i16`/`i32` and `deserialize_f32` call
`take_bytes(8)` and then fail the `try_into` to the narrower array, so
they error on every input; `deserialize_i64` takes eight bytes, flips the
top bit of the first byte and reads big-endian two's complement;
`deserialize_f64` takes eight bytes and inverts the sign-transform by the
first byte's top bit; enum variants read one index byte and decode the
payload at that index. -/
def kcDecode : KCType → Bytes → Except Unit (KCV × Bytes)
  | .tb, l =>
    match l with
    | [] => .error ()
    | c :: r =>
      if c = 0 then .ok (.vbool false, r)
      else if c = 1 then .ok (.vbool true, r)
      else .error ()
  | .tu8, _ => .error ()
  | .tu16, _ => .error ()
  | .tu32, _ => .error ()
  | .tu64, _ => .error ()
  | .ti8, l => do
    let _ ← takeBytes 8 l
    .error ()
  | .ti16, l => do
    let _ ← takeBytes 8 l
    .error ()
  | .ti32, l => do
    let _ ← takeBytes 8 l
    .error ()
  | .ti64, l => do
    let (bs, r) ← takeBytes 8 l
    let b0 := bs.headD 0
    let m := beVal ((if b0 < 128 then b0 + 128 else b0 - 128) :: bs.tail)
    let x : Int := if m < 2 ^ 63 then (m : Int) else (m : Int) - 2 ^ 64
    .ok (.vi64 x, r)
  | .tf32, l => do
    let _ ← takeBytes 8 l
    .error ()
  | .tf64, l => do
    let (bs, r) ← takeBytes 8 l
    let b0 := bs.headD 0
    let bs2 := if 128 ≤ b0 then (b0 - 128) :: bs.tail else bs.map (fun c => 255 - c)
    .ok (.vf64 (beVal bs2), r)
  | .tbytes, l => do
    let (v, r) ← decodeNextBytes l
    .ok (.vbytes v, r)
  | .tunit, l => .ok (.vunit, l)
  | .tpair t1 t2, l => do
    let (x, r1) ← kcDecode t1 l
    let (y, r2) ← kcDecode t2 r1
    .ok (.vpair x y, r2)
  | .tvariant ts, l =>
    match l with
    | [] => .error ()
    | i :: r =>
      match h : ts[i]? with
      | some t => do
        let (x, r2) ← kcDecode t r
        .ok (.vvariant i x, r2)
      | none => .error ()
termination_by t _ => sizeOf t
decreasing_by
  all_goals simp_wf
  all_goals try omega
  have hm : t ∈ ts := by
    rcases List.getElem?_eq_some.mp h with ⟨hlt, hEl⟩
    exact hEl ▸ List.getElem_mem hlt
  have := List.sizeOf_lt_of_mem hm
  omega

theorem except_bind_ok {ε α β : Type} (a : α) (f : α → Except ε β) :
    (Except.ok a : Except ε α) >>= f = f a := rfl

theorem except_bind_err {ε α β : Type} (e : ε) (f : α → Except ε β) :
    (Except.error e : Except ε α) >>= f = Except.error e := rfl

theorem takeBytes_append {u : Bytes} {n : Nat} (h : u.length = n) (rest : Bytes) :
    takeBytes n (u ++ rest) = .ok (u, rest) := by
  subst h
  simp [takeBytes, List.take_left, List.drop_left]

theorem beVal_acc (bs : Bytes) : ∀ a : Nat,
    bs.foldl (fun x c => x * 256 + c) a = a * 256 ^ bs.length + beVal bs := by
  induction bs with
  | nil => intro a; simp [beVal]
  | cons c bs ih =>
    intro a
    have h1 : (c :: bs).foldl (fun x c => x * 256 + c) a =
        bs.foldl (fun x c => x * 256 + c) (a * 256 + c) := rfl
    have h2 : beVal (c :: bs) = bs.foldl (fun x c => x * 256 + c) c := by
      simp [beVal]
    rw [h1, ih (a * 256 + c), h2, ih c]
    simp [List.length_cons]
    ring

theorem beVal_cons (c : Nat) (bs : Bytes) :
    beVal (c :: bs) = c * 256 ^ bs.length + beVal bs := by
  have h : beVal (c :: bs) = bs.foldl (fun x c => x * 256 + c) c := by simp [beVal]
  rw [h, beVal_acc bs c]

theorem beVal_beBytes (n v : Nat) (h : v < 256 ^ n) : beVal (beBytes n v) = v := by
  induction n generalizing v with
  | zero =>
    have : v = 0 := by simpa using h
    simp [this, beBytes, beVal]
  | succ n ih =>
    have hpos : 0 < 256 ^ n := Nat.pos_pow_of_pos n (by norm_num)
    have hd : v / 256 ^ n < 256 := Nat.div_lt_of_lt_mul (by
      calc v < 256 ^ (n + 1) := h
        _ = 256 ^ n * 256 := by ring)
    have hmod : v / 256 ^ n % 256 = v / 256 ^ n := Nat.mod_eq_of_lt hd
    have htail : beVal (beBytes n v) = v % 256 ^ n := by
      rw [← beBytes_mod n v]
      exact ih _ (Nat.mod_lt v hpos)
    show beVal (v / 256 ^ n % 256 :: beBytes n v) = v
    rw [beVal_cons, beBytes_length, hmod, htail]
    have hsplit2 := Nat.div_add_mod v (256 ^ n)
    have hco3 : v / 256 ^ n * 256 ^ n = 256 ^ n * (v / 256 ^ n) := Nat.mul_comm _ _
    omega

/-- Pointwise complement of a big-endian encoding encodes the complement
of the value. -/
theorem beBytes_compl (n v : Nat) (h : v < 256 ^ n) :
    (beBytes n v).map (fun c => 255 - c) = beBytes n (256 ^ n - 1 - v) := by
  induction n generalizing v with
  | zero => rfl
  | succ n ih =>
    have hpos : 0 < 256 ^ n := Nat.pos_pow_of_pos n (by norm_num)
    have hd : v / 256 ^ n < 256 := Nat.div_lt_of_lt_mul (by
      calc v < 256 ^ (n + 1) := h
        _ = 256 ^ n * 256 := by ring)
    have hsplit : 256 ^ n * (v / 256 ^ n) + v % 256 ^ n = v := Nat.div_add_mod v (256 ^ n)
    have hm : v % 256 ^ n < 256 ^ n := Nat.mod_lt v hpos
    have hmod : v / 256 ^ n % 256 = v / 256 ^ n := Nat.mod_eq_of_lt hd
    have hexp : 256 ^ (n + 1) = 256 ^ n * 256 := by ring
    have hprodc : 256 ^ n * (255 - v / 256 ^ n) + 256 ^ n * (v / 256 ^ n) = 256 ^ n * 255 := by
      rw [← Nat.mul_add]
      congr 1
      omega
    have hco : 256 ^ n * (v / 256 ^ n) = (v / 256 ^ n) * 256 ^ n := Nat.mul_comm _ _
    have hco2 : 256 ^ n * (255 - v / 256 ^ n) = (255 - v / 256 ^ n) * 256 ^ n :=
      Nat.mul_comm _ _
    have hcval : 256 ^ (n + 1) - 1 - v =
        256 ^ n * (255 - v / 256 ^ n) + (256 ^ n - 1 - v % 256 ^ n) := by
      have hexp2 : 256 ^ (n + 1) = 256 * 256 ^ n := by ring
      omega
    have hchead : (256 ^ (n + 1) - 1 - v) / 256 ^ n = 255 - v / 256 ^ n := by
      rw [hcval]
      rw [Nat.mul_add_div hpos]
      have : (256 ^ n - 1 - v % 256 ^ n) / 256 ^ n = 0 := Nat.div_eq_of_lt (by omega)
      omega
    have hcmod : (256 ^ (n + 1) - 1 - v) % 256 ^ n = 256 ^ n - 1 - v % 256 ^ n := by
      rw [hcval, Nat.mul_add_mod]
      exact Nat.mod_eq_of_lt (by omega)
    have hchead2 : (256 ^ (n + 1) - 1 - v) / 256 ^ n % 256 = 255 - v / 256 ^ n := by
      rw [hchead]
      exact Nat.mod_eq_of_lt (by omega)
    show ((v / 256 ^ n % 256) :: beBytes n v).map (fun c => 255 - c) =
      (256 ^ (n + 1) - 1 - v) / 256 ^ n % 256 :: beBytes n (256 ^ (n + 1) - 1 - v)
    rw [List.map_cons, hmod, hchead2]
    congr 1
    rw [← beBytes_mod n v, ih _ (Nat.mod_lt v hpos), ← beBytes_mod n (256 ^ (n + 1) - 1 - v),
      hcmod]

theorem decodeNextBytes_roundtrip (bs : Bytes) : ∀ rest : Bytes,
    decodeNextBytes (serBytes bs ++ rest) = .ok (bs, rest) := by
  induction bs with
  | nil => intro rest; rfl
  | cons x xs ih =>
    intro rest
    by_cases hx : x = 0
    · subst hx
      have harr : serBytes (0 :: xs) ++ rest = 0 :: 255 :: (serBytes xs ++ rest) := by
        simp [serBytes, escape]
      have hstep : decodeNextBytes (0 :: 255 :: (serBytes xs ++ rest)) =
          match decodeNextBytes (serBytes xs ++ rest) with
          | .ok (v, r) => .ok (0 :: v, r)
          | .error e => .error e := by
        simp [decodeNextBytes]
      rw [harr, hstep, ih rest]
    · have harr : serBytes (x :: xs) ++ rest = x :: (serBytes xs ++ rest) := by
        simp [serBytes, escape, hx]
      have hstep : decodeNextBytes (x :: (serBytes xs ++ rest)) =
          match decodeNextBytes (serBytes xs ++ rest) with
          | .ok (v, r) => .ok (x :: v, r)
          | .error e => .error e := by
        rw [decodeNextBytes.eq_def]
        simp [hx]
      rw [harr, hstep, ih rest]

theorem decSupportedList_mem {t : KCType} : ∀ {ts : List KCType},
    decSupportedList ts = true → t ∈ ts → decSupported t = true
  | u :: us, hall, hm => by
    have h2 : decSupported u = true ∧ decSupportedList us = true := by
      simpa [decSupportedList, Bool.and_eq_true] using hall
    rcases List.mem_cons.mp hm with h | h
    · subst h; exact h2.1
    · exact decSupportedList_mem h2.2 h

theorem decSupported_mem {ts : List KCType} {t : KCType}
    (hall : decSupported (KCType.tvariant ts) = true) (hm : t ∈ ts) :
    decSupported t = true :=
  decSupportedList_mem hall hm

/-- Round trip for the shapes whose decoder works: decoding the encoding of
a well-formed value at its own type returns the value and the unread
suffix. -/
theorem kcDecode_roundtrip (p : KCV) : ∀ (t : KCType), hasType p t = true →
    decSupported t = true → kcWF p = true → ∀ rest : Bytes,
    kcDecode t (kcEncode p ++ rest) = .ok (p, rest) := by
  induction p with
  | vbool x =>
    intro t ht hsup hw rest
    cases t <;> simp [hasType] at ht
    cases x <;> simp [kcEncode, kcDecode]
  | vu8 x =>
    intro t ht hsup hw rest
    cases t <;> simp [hasType] at ht
    simp [decSupported] at hsup
  | vu16 x =>
    intro t ht hsup hw rest
    cases t <;> simp [hasType] at ht
    simp [decSupported] at hsup
  | vu32 x =>
    intro t ht hsup hw rest
    cases t <;> simp [hasType] at ht
    simp [decSupported] at hsup
  | vu64 x =>
    intro t ht hsup hw rest
    cases t <;> simp [hasType] at ht
    simp [decSupported] at hsup
  | vi8 x =>
    intro t ht hsup hw rest
    cases t <;> simp [hasType] at ht
    simp [decSupported] at hsup
  | vi16 x =>
    intro t ht hsup hw rest
    cases t <;> simp [hasType] at ht
    simp [decSupported] at hsup
  | vi32 x =>
    intro t ht hsup hw rest
    cases t <;> simp [hasType] at ht
    simp [decSupported] at hsup
  | vi64 x =>
    intro t ht hsup hw rest
    cases t <;> simp [hasType] at ht
    have hxb : -(2 ^ 63) ≤ x ∧ x < 2 ^ 63 := by
      have := hw; simp [kcWF] at this; exact this
    set n : Nat := Int.toNat (x + 2 ^ 63) with hn
    have hnb : n < 256 ^ 8 := by norm_num; omega
    have hni : (n : Int) = x + 2 ^ 63 := by omega
    have hlen : (beBytes 8 n).length = 8 := beBytes_length 8 n
    have htk : takeBytes 8 (beBytes 8 n ++ rest) = .ok (beBytes 8 n, rest) :=
      takeBytes_append hlen rest
    have hbe : beBytes 8 n = n / 256 ^ 7 % 256 :: beBytes 7 n := rfl
    have hd : n / 256 ^ 7 < 256 := Nat.div_lt_of_lt_mul (by
      calc n < 256 ^ 8 := hnb
        _ = 256 ^ 7 * 256 := by ring)
    have hmod : n / 256 ^ 7 % 256 = n / 256 ^ 7 := Nat.mod_eq_of_lt hd
    have hsplit : 256 ^ 7 * (n / 256 ^ 7) + n % 256 ^ 7 = n := Nat.div_add_mod n (256 ^ 7)
    have hmlt : n % 256 ^ 7 < 256 ^ 7 := Nat.mod_lt n (by norm_num)
    have htail : beVal (beBytes 7 n) = n % 256 ^ 7 := by
      rw [← beBytes_mod 7 n]
      exact beVal_beBytes 7 _ hmlt
    simp only [kcEncode, kcDecode, htk, except_bind_ok]
    rw [hbe]
    simp only [List.headD_cons, List.tail_cons, hmod]
    have hpow : (256 : Nat) ^ 7 = 2 ^ 56 := by norm_num
    by_cases hneg : n / 256 ^ 7 < 128
    · have hnsmall : n < 2 ^ 63 := by
        rw [hpow] at hsplit hmlt
        omega
      rw [if_pos hneg]
      have hval : beVal ((n / 256 ^ 7 + 128) :: beBytes 7 n) = n + 2 ^ 63 := by
        rw [beVal_cons, beBytes_length, htail]
        rw [hpow] at hsplit ⊢
        omega
      rw [hval]
      have hge : ¬ (n + 2 ^ 63 < 2 ^ 63) := by omega
      rw [if_neg hge]
      have : ((n + 2 ^ 63 : Nat) : Int) - 2 ^ 64 = x := by
        push_cast
        omega
      rw [this]
    · have hnbig : 2 ^ 63 ≤ n := by
        rw [hpow] at hsplit
        omega
      rw [if_neg hneg]
      have hval : beVal ((n / 256 ^ 7 - 128) :: beBytes 7 n) = n - 2 ^ 63 := by
        rw [beVal_cons, beBytes_length, htail]
        rw [hpow] at hsplit ⊢
        omega
      rw [hval]
      have hlt : n - 2 ^ 63 < 2 ^ 63 := by norm_num at hnb; omega
      rw [if_pos hlt]
      have : ((n - 2 ^ 63 : Nat) : Int) = x := by
        push_cast [Nat.cast_sub hnbig]
        omega
      rw [this]
  | vf32 pb =>
    intro t ht hsup hw rest
    cases t <;> simp [hasType] at ht
    simp [decSupported] at hsup
  | vf64 pb =>
    intro t ht hsup hw rest
    cases t <;> simp [hasType] at ht
    have hpw : pb < 2 ^ 64 := by
      have := hw; simp [kcWF] at this; exact this
    set k : Nat := fKey 64 pb with hk
    have hkb : k < 256 ^ 8 := by
      unfold fKey at hk
      norm_num at hk ⊢
      split at hk <;> omega
    have hlen : (beBytes 8 k).length = 8 := beBytes_length 8 k
    have htk : takeBytes 8 (beBytes 8 k ++ rest) = .ok (beBytes 8 k, rest) :=
      takeBytes_append hlen rest
    have hbe : beBytes 8 k = k / 256 ^ 7 % 256 :: beBytes 7 k := rfl
    have hd : k / 256 ^ 7 < 256 := Nat.div_lt_of_lt_mul (by
      calc k < 256 ^ 8 := hkb
        _ = 256 ^ 7 * 256 := by ring)
    have hmod : k / 256 ^ 7 % 256 = k / 256 ^ 7 := Nat.mod_eq_of_lt hd
    have hsplit : 256 ^ 7 * (k / 256 ^ 7) + k % 256 ^ 7 = k := Nat.div_add_mod k (256 ^ 7)
    have hmlt : k % 256 ^ 7 < 256 ^ 7 := Nat.mod_lt k (by norm_num)
    have htail : beVal (beBytes 7 k) = k % 256 ^ 7 := by
      rw [← beBytes_mod 7 k]
      exact beVal_beBytes 7 _ hmlt
    have hpow : (256 : Nat) ^ 7 = 2 ^ 56 := by norm_num
    simp only [kcEncode, kcDecode, htk, except_bind_ok]
    rw [hbe]
    simp only [List.headD_cons, List.tail_cons, hmod]
    by_cases hpos : pb < 2 ^ 63
    · have hkval : k = pb + 2 ^ 63 := by
        rw [hk]
        unfold fKey
        simp only [show (64 : Nat) - 1 = 63 from rfl]
        rw [if_pos hpos]
      have hkbig : 2 ^ 63 ≤ k := by omega
      have hhead : 128 ≤ k / 256 ^ 7 := by
        rw [hpow] at hsplit hmlt
        omega
      rw [if_pos hhead]
      have hval : beVal ((k / 256 ^ 7 - 128) :: beBytes 7 k) = k - 2 ^ 63 := by
        rw [beVal_cons, beBytes_length, htail]
        rw [hpow] at hsplit ⊢
        omega
      rw [hval]
      have : k - 2 ^ 63 = pb := by omega
      rw [this]
    · have hkval : k = 2 ^ 64 - 1 - pb := by
        rw [hk]
        unfold fKey
        simp only [show (64 : Nat) - 1 = 63 from rfl]
        rw [if_neg hpos]
      have hksmall : k < 2 ^ 63 := by omega
      have hhead : ¬ (128 ≤ k / 256 ^ 7) := by
        rw [hpow] at hsplit hmlt
        omega
      rw [if_neg hhead]
      have hcompl : (beBytes 8 k).map (fun c => 255 - c) = beBytes 8 (256 ^ 8 - 1 - k) :=
        beBytes_compl 8 k hkb
      have hc2 : (256 : Nat) ^ 8 - 1 - k = pb := by norm_num; omega
      rw [hbe, hmod] at hcompl
      rw [hcompl, hc2]
      have hfin : beVal (beBytes 8 pb) = pb := beVal_beBytes 8 pb (by norm_num; omega)
      rw [hfin]
  | vbytes bs =>
    intro t ht hsup hw rest
    cases t <;> simp [hasType] at ht
    simp only [kcEncode, kcDecode]
    rw [decodeNextBytes_roundtrip bs rest]
    rfl
  | vunit =>
    intro t ht hsup hw rest
    cases t <;> simp [hasType] at ht
    simp [kcEncode, kcDecode]
  | vpair a b iha ihb =>
    intro t ht hsup hw rest
    cases t <;> simp [hasType] at ht
    case tpair t1 t2 =>
    have hws : kcWF a = true ∧ kcWF b = true := by
      have := hw; simp [kcWF] at this; exact this
    have hsups : decSupported t1 = true ∧ decSupported t2 = true := by
      have := hsup; simp [decSupported] at this; exact this
    simp only [kcEncode, kcDecode, List.append_assoc]
    rw [iha t1 ht.1 hsups.1 hws.1 (kcEncode b ++ rest)]
    simp only [except_bind_ok]
    rw [ihb t2 ht.2 hsups.2 hws.2 rest]
    rfl
  | vvariant i a iha =>
    intro t ht hsup hw rest
    cases t <;> simp [hasType] at ht
    case tvariant ts =>
    have hws : kcWF a = true := by
      have := hw; simp [kcWF] at this; exact this.2
    rcases hidx : ts[i]? with _ | tx
    · rw [hidx] at ht; simp at ht
    · rw [hidx] at ht
      have hmem : tx ∈ ts := by
        rcases List.getElem?_eq_some.mp hidx with ⟨hlt, hEl⟩
        exact hEl ▸ List.getElem_mem hlt
      have hsup2 : decSupported tx = true := decSupported_mem hsup hmem
      simp only [kcEncode, kcDecode, List.cons_append]
      split
      next t2 heq =>
        rw [hidx] at heq
        have ht2 : t2 = tx := by injection heq with h2; exact h2.symm
        subst ht2
        rw [iha t2 ht hsup2 hws rest]
        rfl
      next heq =>
        rw [hidx] at heq
        cases heq

/- ## Claims C6 and C7 -/

/-- C7 (counterexample): the claim asserts that for same-typed values
`a < b ⇔ encode(a) < encode(b)`, with `-0.0` normalized to `+0.0` before
encoding so that equal floats encode identically.  The code contains no
such normalization: at `a = -0.0` (bit pattern `2^63`) and `b = +0.0`
(bit pattern `0`), `a < b` is false under IEEE `<` (the two zeros are
equal), yet `encode(a)` is strictly below `encode(b)` in byte order, so
the claimed equivalence fails at this same-typed well-formed pair. -/
theorem c7_counterexample :
    sameShape (KCV.vf64 (2 ^ 63)) (KCV.vf64 0) = true ∧
    kcWF (KCV.vf64 (2 ^ 63)) = true ∧ kcWF (KCV.vf64 0) = true ∧
    kcLt false (KCV.vf64 (2 ^ 63)) (KCV.vf64 0) = false ∧
    bytesLt (kcEncode (KCV.vf64 (2 ^ 63))) (kcEncode (KCV.vf64 0)) = true := by
  refine ⟨rfl, by decide, by decide, by decide, by decide⟩

/-- C7 (amended): for all same-typed well-formed values of the key-codec
supported types — bool, u8 through u64, i8 through i64, f32/f64, byte
strings, and tuples or tagged variants of these — the logical order is
reflected exactly by lexicographic byte order of the encodings, where the
order on floats is the IEEE-754 total order on bit patterns (the code does
not normalize `-0.0`, which encodes strictly below `+0.0`, and NaN bit
patterns are ordered with the rest). -/
theorem c7_codec_monotonic (p q : KCV) (hs : sameShape p q = true)
    (hp : kcWF p = true) (hq : kcWF q = true) :
    kcLt true p q = true ↔ bytesLt (kcEncode p) (kcEncode q) = true := by
  have h := kcEncode_cmp p q hs hp hq [] []
  simp only [List.append_nil] at h
  by_cases he : p = q
  · subst he
    rw [kcLt_irrefl, bytesLt_irrefl]
  · rw [if_neg he] at h
    by_cases hl : kcLt true p q = true
    · rw [if_pos hl] at h
      constructor
      · intro _
        exact bytesLt_iff.mpr h
      · intro _
        exact hl
    · rw [if_neg hl] at h
      constructor
      · intro hc
        exact absurd hc hl
      · intro hb
        have hcl := bytesLt_iff.mp hb
        rw [h] at hcl
        cases hcl

/-- C7 (witness): the amended monotonicity applied to the concrete
same-typed pair (bytes [0], i8 -3) versus (bytes [0], i8 4). -/
theorem c7_codec_monotonic_witness :
    kcLt true (KCV.vpair (KCV.vbytes [0]) (KCV.vi8 (-3)))
        (KCV.vpair (KCV.vbytes [0]) (KCV.vi8 4)) = true ↔
      bytesLt (kcEncode (KCV.vpair (KCV.vbytes [0]) (KCV.vi8 (-3))))
        (kcEncode (KCV.vpair (KCV.vbytes [0]) (KCV.vi8 4))) = true :=
  c7_codec_monotonic _ _ (by decide) (by decide) (by decide)

/-- C6 (counterexample): the claim asserts `decode(encode(x)) == x` for
every encodable value including all of i8 through i64.  For `x = 5 : i8`
the encoder emits the single sign-flipped byte `[133]`, but
`deserialize_i8` calls `take_bytes(8)` and then `try_into::<[u8; 1]>` on
the eight-byte slice, so decoding the encoding of `5 : i8` fails instead
of returning `5`. -/
theorem c6_counterexample :
    hasType (KCV.vi8 5) KCType.ti8 = true ∧ kcWF (KCV.vi8 5) = true ∧
    kcEncode (KCV.vi8 5) = [133] ∧
    kcDecode KCType.ti8 (kcEncode (KCV.vi8 5)) = .error () := by
  refine ⟨by decide, by decide, by decide, ?_⟩
  have he : kcEncode (KCV.vi8 5) = [133] := by decide
  rw [he]
  simp [kcDecode, takeBytes, except_bind_err]

/-- C6 (amended): the round trip `decode(encode(x)) = x` holds exactly on
the shapes whose decoder is implemented: bool, i64, f64, byte strings,
unit variants, and tuples or tagged variants built from these.  (The
deserializers for u8 through u64 are `unimplemented!()`, and i8/i16/i32
and f32 read eight bytes then fail the narrowing conversion, so those
shapes never decode.)  Decoding the encoding of a well-formed value of a
supported shape returns the value and leaves a trailing suffix intact. -/
theorem c6_roundtrip_supported (p : KCV) (t : KCType) (ht : hasType p t = true)
    (hsup : decSupported t = true) (hw : kcWF p = true) (rest : Bytes) :
    kcDecode t (kcEncode p ++ rest) = .ok (p, rest) :=
  kcDecode_roundtrip p t ht hsup hw rest

/-- C6 (witness): the round trip at the concrete value
(true, (-5 : i64, variant 1 of bytes [0, 7])). -/
theorem c6_roundtrip_witness :
    kcDecode
        (KCType.tpair KCType.tb (KCType.tpair KCType.ti64
          (KCType.tvariant [KCType.tunit, KCType.tbytes])))
        (kcEncode (KCV.vpair (KCV.vbool true) (KCV.vpair (KCV.vi64 (-5))
          (KCV.vvariant 1 (KCV.vbytes [0, 7])))) ++ [9]) =
      .ok (KCV.vpair (KCV.vbool true) (KCV.vpair (KCV.vi64 (-5))
        (KCV.vvariant 1 (KCV.vbytes [0, 7]))), [9]) :=
  c6_roundtrip_supported _ _ (by decide) (by decide) (by decide) [9]

/- ## Error model (src/src/db_error.rs) -/

/-- The error kinds of `db_error::Error` relevant to the storage and MVCC
layers.  The `errdata!` macro (src/src/db_error.rs lines 123-128) builds
`Error::InvalidData` from a format string; `ReadOnly` and `Serialization`
are declared in the enum but never constructed anywhere in the source. -/
inductive DbError where
  | invalidData (msg : String)
  | readOnly
  | serialization
  | io (msg : String)
deriving DecidableEq

/- ## MVCC composite key space (src/src/storage/mvcc.rs, Key enum) -/

/-- The MVCC `Key` enum: variant order matches the declaration order in
src/src/storage/mvcc.rs lines 76-105, which fixes the serde variant
indices 0..5. -/
inductive MKey where
  | nextVersion
  | active (v : Nat)
  | snapshot (v : Nat)
  | activeWrite (v : Nat) (k : Bytes)
  | version (k : Bytes) (v : Nat)
  | unversioned (k : Bytes)
deriving DecidableEq

/-- Versions fit `u64`. -/
def mkWF : MKey → Bool
  | .nextVersion => true
  | .active v => v < 2 ^ 64
  | .snapshot v => v < 2 ^ 64
  | .activeWrite v _ => v < 2 ^ 64
  | .version _ v => v < 2 ^ 64
  | .unversioned _ => true

/-- Key-codec encoding of the MVCC `Key` enum: the serde variant index
byte, then the payload fields in order — `u64` versions as big-endian
bytes, user keys as escaped-and-terminated byte strings (§4.1).
Modelled from the spec for the tuple-variant payloads: the serializer
wrapper `src/utils/serde_utils/key_coder.rs` that `Key::encode` resolves
to is missing from src/ (the draft present at src/src/utils/key_coder.rs
leaves `SerializeTupleVariant::serialize_field` unimplemented), and spec
§3.4/§4.1 fix the format as the tag byte followed by the concatenated
field encodings. -/
def encodeMKey : MKey → Bytes
  | .nextVersion => [0]
  | .active v => 1 :: beBytes 8 v
  | .snapshot v => 2 :: beBytes 8 v
  | .activeWrite v k => 3 :: (beBytes 8 v ++ serBytes k)
  | .version k v => 4 :: (serBytes k ++ beBytes 8 v)
  | .unversioned k => 5 :: serBytes k

/-- Encoding of `KeyPrefix::Active`: just the tag byte. -/
def activePfx : Bytes := [1]

/-- Encoding of `KeyPrefix::ActiveWrite(v)`: tag byte and version. -/
def activeWritePfx (v : Nat) : Bytes := 3 :: beBytes 8 v

/-- Decoding of the MVCC `Key` enum, mirroring `encodeMKey` (the decoder
wrapper is in the same missing file; decoding is the inverse parse fixed
by spec §4.1, and like serde it ignores bytes after the parsed value). -/
def decodeMKey : Bytes → Except DbError MKey
  | 0 :: _ => .ok .nextVersion
  | 1 :: rest =>
    match takeBytes 8 rest with
    | .ok (vb, _) => .ok (.active (beVal vb))
    | .error _ => .error (.invalidData "decode")
  | 2 :: rest =>
    match takeBytes 8 rest with
    | .ok (vb, _) => .ok (.snapshot (beVal vb))
    | .error _ => .error (.invalidData "decode")
  | 3 :: rest =>
    match takeBytes 8 rest with
    | .ok (vb, rest2) =>
      match decodeNextBytes rest2 with
      | .ok (k, _) => .ok (.activeWrite (beVal vb) k)
      | .error _ => .error (.invalidData "decode")
    | .error _ => .error (.invalidData "decode")
  | 4 :: rest =>
    match decodeNextBytes rest with
    | .ok (k, rest2) =>
      match takeBytes 8 rest2 with
      | .ok (vb, _) => .ok (.version k (beVal vb))
      | .error _ => .error (.invalidData "decode")
    | .error _ => .error (.invalidData "decode")
  | 5 :: rest =>
    match decodeNextBytes rest with
    | .ok (k, _) => .ok (.unversioned k)
    | .error _ => .error (.invalidData "decode")
  | _ => .error (.invalidData "decode")

theorem decodeMKey_encodeMKey (m : MKey) (h : mkWF m = true) :
    decodeMKey (encodeMKey m) = .ok m := by
  have h64 : (2 : Nat) ^ 64 = 256 ^ 8 := by norm_num
  cases m with
  | nextVersion => rfl
  | active v =>
    have hv : v < 256 ^ 8 := by have := h; simp [mkWF] at this; omega
    have hlen : (beBytes 8 v).length = 8 := beBytes_length 8 v
    have htk : takeBytes 8 (beBytes 8 v ++ []) = .ok (beBytes 8 v, []) :=
      takeBytes_append hlen []
    rw [List.append_nil] at htk
    simp [decodeMKey, encodeMKey, htk, beVal_beBytes 8 v hv]
  | snapshot v =>
    have hv : v < 256 ^ 8 := by have := h; simp [mkWF] at this; omega
    have hlen : (beBytes 8 v).length = 8 := beBytes_length 8 v
    have htk : takeBytes 8 (beBytes 8 v ++ []) = .ok (beBytes 8 v, []) :=
      takeBytes_append hlen []
    rw [List.append_nil] at htk
    simp [decodeMKey, encodeMKey, htk, beVal_beBytes 8 v hv]
  | activeWrite v k =>
    have hv : v < 256 ^ 8 := by have := h; simp [mkWF] at this; omega
    have hlen : (beBytes 8 v).length = 8 := beBytes_length 8 v
    have htk : takeBytes 8 (beBytes 8 v ++ serBytes k) = .ok (beBytes 8 v, serBytes k) :=
      takeBytes_append hlen (serBytes k)
    have hdec : decodeNextBytes (serBytes k) = .ok (k, []) := by
      have := decodeNextBytes_roundtrip k []
      rwa [List.append_nil] at this
    simp [decodeMKey, encodeMKey, htk, hdec, beVal_beBytes 8 v hv]
  | version k v =>
    have hv : v < 256 ^ 8 := by have := h; simp [mkWF] at this; omega
    have hlen : (beBytes 8 v).length = 8 := beBytes_length 8 v
    have hdec : decodeNextBytes (serBytes k ++ beBytes 8 v) = .ok (k, beBytes 8 v) :=
      decodeNextBytes_roundtrip k (beBytes 8 v)
    have htk : takeBytes 8 (beBytes 8 v ++ []) = .ok (beBytes 8 v, []) :=
      takeBytes_append hlen []
    rw [List.append_nil] at htk
    simp [decodeMKey, encodeMKey, hdec, htk, beVal_beBytes 8 v hv]
  | unversioned k =>
    have hdec : decodeNextBytes (serBytes k) = .ok (k, []) := by
      have := decodeNextBytes_roundtrip k []
      rwa [List.append_nil] at this
    simp [decodeMKey, encodeMKey, hdec]

/- ## Value codec (src/src/utils/bin_coder.rs, external bincode crate) -/

/-- Modelled from the spec: §4.2 value codec.  `bin_coder` delegates to
the external `bincode` crate (standard configuration); the only property
the MVCC layer relies on is exact round-tripping, and the encoded bytes
are never compared for order.  The `Option<bytes>` payload stored at
`Version(k, v)` is a tag byte followed by length-prefixed bytes. -/
def binEncodeOpt : Option Bytes → Bytes
  | none => [0]
  | some v => 1 :: (beBytes 8 v.length ++ v)

/-- Modelled from the spec: §4.2; inverse of `binEncodeOpt`, ignoring
trailing bytes as `borrow_decode_from_slice` does. -/
def binDecodeOpt : Bytes → Except DbError (Option Bytes)
  | 0 :: _ => .ok none
  | 1 :: rest =>
    match takeBytes 8 rest with
    | .ok (lb, rest2) =>
      match takeBytes (beVal lb) rest2 with
      | .ok (v, _) => .ok (some v)
      | .error _ => .error (.invalidData "decode")
    | .error _ => .error (.invalidData "decode")
  | _ => .error (.invalidData "decode")

/-- Modelled from the spec: §4.2 value codec for the `NextVersion`
counter (`Version::encode`). -/
def binEncodeU64 (v : Nat) : Bytes := beBytes 8 v

/-- Modelled from the spec: §4.2; inverse of `binEncodeU64`. -/
def binDecodeU64 (l : Bytes) : Except DbError Nat :=
  match takeBytes 8 l with
  | .ok (vb, _) => .ok (beVal vb)
  | .error _ => .error (.invalidData "decode")

/-- Modelled from the spec: §4.2 value codec for the persisted active-set
snapshot (`BTreeSet<Version>::encode`): an element count then the
elements. -/
def binEncodeVerSet (vs : List Nat) : Bytes :=
  beBytes 8 vs.length ++ vs.flatMap (beBytes 8)

/-- Modelled from the spec: §4.2; element-wise inverse of the set
payload. -/
def binDecodeVerSetAux : Nat → Bytes → Except DbError (List Nat)
  | 0, _ => .ok []
  | n + 1, l =>
    match takeBytes 8 l with
    | .ok (vb, rest) =>
      match binDecodeVerSetAux n rest with
      | .ok vs => .ok (beVal vb :: vs)
      | .error e => .error e
    | .error _ => .error (.invalidData "decode")

/-- Modelled from the spec: §4.2; inverse of `binEncodeVerSet`. -/
def binDecodeVerSet (l : Bytes) : Except DbError (List Nat) :=
  match takeBytes 8 l with
  | .ok (cb, rest) => binDecodeVerSetAux (beVal cb) rest
  | .error _ => .error (.invalidData "decode")

theorem binDecodeOpt_encode (o : Option Bytes)
    (h : ∀ v, o = some v → v.length < 2 ^ 64) :
    binDecodeOpt (binEncodeOpt o) = .ok o := by
  cases o with
  | none => rfl
  | some v =>
    have hlen : v.length < 256 ^ 8 := by have := h v rfl; omega
    have hl8 : (beBytes 8 v.length).length = 8 := beBytes_length 8 v.length
    have htk : takeBytes 8 (beBytes 8 v.length ++ v) = .ok (beBytes 8 v.length, v) :=
      takeBytes_append hl8 v
    have hval : beVal (beBytes 8 v.length) = v.length := beVal_beBytes 8 _ hlen
    have htk2 : takeBytes v.length (v ++ []) = .ok (v, []) := takeBytes_append rfl []
    rw [List.append_nil] at htk2
    simp [binEncodeOpt, binDecodeOpt, htk, hval, htk2]

/- ## Engine (src/src/storage/memory.rs; the interface the MVCC layer uses) -/

/-- The storage engine under the MVCC layer, modelled after the `Memory`
reference engine: a `BTreeMap<Vec<u8>, Vec<u8>>`, embedded as an
association list sorted strictly ascending in byte order.  The Bitcask
engine implements the same interface. -/
abbrev EngineState := List (Bytes × Bytes)

/-- Engine `get`. -/
def engGet (k : Bytes) : EngineState → Option Bytes
  | [] => none
  | (k2, v) :: rest => if k2 = k then some v else engGet k rest

/-- Engine `set`: sorted insert or overwrite. -/
def engSet (k v : Bytes) : EngineState → EngineState
  | [] => [(k, v)]
  | (k2, v2) :: rest =>
    if bytesLt k k2 then (k, v) :: (k2, v2) :: rest
    else if k2 = k then (k, v) :: rest
    else (k2, v2) :: engSet k v rest

/-- Engine `delete`. -/
def engDelete (k : Bytes) (e : EngineState) : EngineState :=
  e.filter fun p => decide (p.1 ≠ k)

/-- Engine `scan(lo..=hi)`: the entries with keys in the inclusive range,
in ascending order (the engine list is kept sorted). -/
def engScan (lo hi : Bytes) (e : EngineState) : List (Bytes × Bytes) :=
  e.filter fun p => !(bytesLt p.1 lo) && !(bytesLt hi p.1)

/-- Byte-prefix test. -/
def hasPfx : Bytes → Bytes → Bool
  | [], _ => true
  | _ :: _, [] => false
  | a :: pa, b :: pb => a == b && hasPfx pa pb

/-- Engine `scan_prefix(p)`: specified as `scan [p, p+1)`, which on byte
keys is exactly the keys that start with `p`. -/
def engScanPfx (pfx : Bytes) (e : EngineState) : List (Bytes × Bytes) :=
  e.filter fun p => hasPfx pfx p.1

/- ## Transactions (src/src/storage/mvcc.rs) -/

/-- `TransactionState` (src/src/storage/mvcc.rs lines 134-141): version,
read-only flag, and the active set (a `BTreeSet<Version>`, modelled as a
sorted duplicate-free list). -/
structure TransactionState where
  version : Nat
  readonly : Bool
  active : List Nat
deriving DecidableEq

/-- Embeds `TransactionState::is_visible` (src/src/storage/mvcc.rs lines
155-164). -/
def TransactionState.is_visible (s : TransactionState) (v : Nat) : Bool :=
  if s.active.contains v then false
  else if s.readonly then v < s.version
  else v ≤ s.version

/-- `BTreeSet::insert`: sorted insert without duplicates. -/
def sortedInsert (v : Nat) : List Nat → List Nat
  | [] => [v]
  | x :: xs => if v < x then v :: x :: xs else if v = x then x :: xs else x :: sortedInsert v xs

/-- Embeds `Transaction::scan_active` (src/src/storage/mvcc.rs lines
313-328): scan the `Active` prefix and collect the versions. -/
def scanActive (e : EngineState) : Except DbError (List Nat) :=
  (engScanPfx activePfx e).foldlM
    (fun acc p =>
      match decodeMKey p.1 with
      | .ok (.active v) => .ok (sortedInsert v acc)
      | .ok _ => .error (.invalidData "require active key")
      | .error e2 => .error e2)
    []

/-- Embeds `Transaction::begin` (src/src/storage/mvcc.rs lines 169-201):
read and bump `NextVersion`, scan the active set, persist a snapshot when
the set is non-empty, and mark this version active. -/
def mvccBegin (e : EngineState) : Except DbError (TransactionState × EngineState) := do
  let version ← match engGet (encodeMKey .nextVersion) e with
    | some bs => binDecodeU64 bs
    | none => .ok 1
  let e1 := engSet (encodeMKey .nextVersion) (binEncodeU64 (version + 1)) e
  let active ← scanActive e1
  let e2 := if active.isEmpty then e1
    else engSet (encodeMKey (.snapshot version)) (binEncodeVerSet active) e1
  let e3 := engSet (encodeMKey (.active version)) [] e2
  .ok ({ version := version, readonly := false, active := active }, e3)

/-- Embeds `Transaction::begin_readonly` (src/src/storage/mvcc.rs lines
206-251): the transaction version is the current `NextVersion` (not the
requested target); with a target version the active set is loaded from
`Snapshot(target)` and its absence is an error. -/
def mvccBeginReadonly (target : Option Nat) (e : EngineState) :
    Except DbError TransactionState := do
  let next ← match engGet (encodeMKey .nextVersion) e with
    | some bs => binDecodeU64 bs
    | none => .ok 1
  let readonly_version := if next > 1 then next else 1
  let active ← match target with
    | some t =>
      match engGet (encodeMKey (.snapshot t)) e with
      | some bs => binDecodeVerSet bs
      | none => .error (.invalidData "snapshot not found")
    | none => scanActive e
  .ok { version := readonly_version, readonly := true, active := active }

/-- The two records a successful write stores (src/src/storage/mvcc.rs
lines 301-309): the `ActiveWrite(V, key)` marker with an empty payload,
then `Version(key, V)` with the encoded optional value. -/
def mvccWriteApply (s : TransactionState) (key : Bytes) (value : Option Bytes)
    (e : EngineState) : EngineState :=
  engSet (encodeMKey (.version key s.version)) (binEncodeOpt value)
    (engSet (encodeMKey (.activeWrite s.version key)) [] e)

/-- Embeds `Transaction::write` (src/src/storage/mvcc.rs lines 257-311):
reject read-only transactions with `errdata!("readonly transaction")`
(an `InvalidData`), then scan `Version(key, lower) ..= Version(key,
u64::MAX)` with `lower = min(active)` or `version + 1`, inspect only the
`last()` record of the range, and fail with
`errdata!("write conflict")` when its version is not visible; otherwise
store the write marker and the version record. -/
def mvccWrite (s : TransactionState) (key : Bytes) (value : Option Bytes)
    (e : EngineState) : Except DbError EngineState :=
  if s.readonly then
    .error (.invalidData "readonly transaction")
  else
    let lower := s.active.head?.getD (s.version + 1)
    let lo := encodeMKey (.version key lower)
    let hi := encodeMKey (.version key (2 ^ 64 - 1))
    match (engScan lo hi e).getLast? with
    | some (k2, _) =>
      match decodeMKey k2 with
      | .ok (.version _ v) =>
        if s.is_visible v then .ok (mvccWriteApply s key value e)
        else .error (.invalidData "write conflict")
      | .ok _ => .error (.invalidData "require Key::Version")
      | .error e2 => .error e2
    | none => .ok (mvccWriteApply s key value e)

/-- `Transaction::set`. -/
def mvccSet (s : TransactionState) (key v : Bytes) (e : EngineState) :
    Except DbError EngineState :=
  mvccWrite s key (some v) e

/-- `Transaction::delete`. -/
def mvccDeleteKey (s : TransactionState) (key : Bytes) (e : EngineState) :
    Except DbError EngineState :=
  mvccWrite s key none e

/-- The loop body of `Transaction::get` over the reversed scan: the
source decodes the payload of every scanned record (line 363) before the
visibility check, and returns the decoded payload of the first visible
one. -/
def mvccGetAux (s : TransactionState) : List (Bytes × Bytes) → Except DbError (Option Bytes)
  | [] => .ok none
  | (k2, val) :: rest =>
    match binDecodeOpt val with
    | .error e2 => .error e2
    | .ok _ =>
      match decodeMKey k2 with
      | .ok (.version _ v) =>
        if s.is_visible v then binDecodeOpt val else mvccGetAux s rest
      | .ok _ => .error (.invalidData "require Key::Version")
      | .error e2 => .error e2

/-- Embeds `Transaction::get` (src/src/storage/mvcc.rs lines 356-376):
scan `Version(key, 0) ..= Version(key, version)` in descending order and
return the payload of the first visible record. -/
def mvccGet (s : TransactionState) (key : Bytes) (e : EngineState) :
    Except DbError (Option Bytes) :=
  mvccGetAux s
    ((engScan (encodeMKey (.version key 0)) (encodeMKey (.version key s.version)) e).reverse)

/-- Embeds `Transaction::commit` (src/src/storage/mvcc.rs lines 379-396):
engine-delete every `ActiveWrite(V, *)` marker and the `Active(V)`
record. -/
def mvccCommit (s : TransactionState) (e : EngineState) : Except DbError EngineState :=
  if s.readonly then .ok e
  else
    let remove := (engScanPfx (activeWritePfx s.version) e).map (fun p => p.1)
    let e1 := remove.foldl (fun acc k => engDelete k acc) e
    .ok (engDelete (encodeMKey (.active s.version)) e1)

/-- Embeds `Transaction::rollback` (src/src/storage/mvcc.rs lines
399-423).  The source collects the encoded `Version(key, V)` keys from
the `ActiveWrite(V, *)` markers and then calls `self.delete(&key)` —
`Transaction::delete`, the MVCC tombstone write — on each of them and on
the encoded `Active(V)` key, instead of `session.delete`.  (In the Rust
code those nested calls re-lock the engine mutex the function already
holds; the embedding models the lock as reentrant and keeps the calls.) -/
def mvccRollback (s : TransactionState) (e : EngineState) : Except DbError EngineState :=
  if s.readonly then .ok e
  else do
    let marks := engScanPfx (activeWritePfx s.version) e
    let rollback ← marks.mapM (fun p =>
      match decodeMKey p.1 with
      | .ok (.activeWrite _ key) => .ok (encodeMKey (.version key s.version))
      | .ok _ => .error (.invalidData "require Key::ActiveWrite")
      | .error e2 => .error e2)
    let e1 ← rollback.foldlM (fun acc k => mvccWrite s k none acc) e
    mvccWrite s (encodeMKey (.active s.version)) none e1

/- ## Claims C1, C2, C8 -/

/-- The claim C1 scenario: version 1 commits value "v1" for key "k",
version 2 commits "v2", then a read-only transaction at historical
version 2 reads "k". -/
def c1Run : Except DbError (Option Bytes) := do
  let (t1, e1) ← mvccBegin []
  let e2 ← mvccSet t1 [107] [118, 49] e1
  let e3 ← mvccCommit t1 e2
  let (t2, e4) ← mvccBegin e3
  let e5 ← mvccSet t2 [107] [118, 50] e4
  let e6 ← mvccCommit t2 e5
  let ro ← mvccBeginReadonly (some 2) e6
  mvccGet ro [107] e6

/-- C1: the claim says `begin_readonly_version(2)` reproduces the view
the writer at version 2 saw at begin, and in particular that after
version 1 commits "v1" and version 2 commits "v2" for key "k",
`begin_readonly_version(2).get("k")` returns `Some("v1")`.  In the code
the scenario fails outright: `Snapshot(2)` was never written (a snapshot
is only persisted when the active set at begin is non-empty), so
`begin_readonly` returns `errdata!("snapshot not found")` instead of a
transaction — and when a snapshot does exist the transaction uses the
current `NextVersion`, not the requested version, as its read point. -/
theorem c1_readonly_version_scenario_fails :
    c1Run = .error (.invalidData "snapshot not found") ∧
    c1Run ≠ .ok (some [118, 49]) := by
  refine ⟨rfl, fun h => ?_⟩
  rw [show c1Run = .error (.invalidData "snapshot not found") from rfl] at h
  exact Except.noConfusion h

/-- The claim C2 scenario: a read/write transaction at version 1 writes
key "k" and rolls back. -/
def c2Run : Except DbError EngineState := do
  let (t1, e1) ← mvccBegin []
  let e2 ← mvccSet t1 [107] [118] e1
  mvccRollback t1 e2

/-- C2: the claim says that after a successful `rollback` no trace of the
transaction remains — no `Active(V)`, no `ActiveWrite(V, k)`, no
`Version(k, V)`.  In the code `rollback` calls the transaction-level
`self.delete` (the MVCC tombstone write) instead of the engine-level
`session.delete`, so it returns success while `Active(1)`,
`ActiveWrite(1, "k")` and `Version("k", 1)` all remain in the engine
(and four fresh records were added on top). -/
theorem c2_rollback_leaves_traces :
    (match c2Run with
     | .ok e =>
       decide (engGet (encodeMKey (.active 1)) e ≠ none) &&
       decide (engGet (encodeMKey (.activeWrite 1 [107])) e ≠ none) &&
       decide (engGet (encodeMKey (.version [107] 1)) e ≠ none)
     | .error _ => false) = true := by
  rfl

/-- C8 (counterexample): the claim says a write in a read-only
transaction fails with the error kind `ReadOnly`.  The code fails it with
`errdata!("readonly transaction")`, which is `Error::InvalidData`; the
`ReadOnly` variant is declared but never constructed. -/
theorem c8_counterexample :
    mvccSet { version := 3, readonly := true, active := [] } [7] [1] [] =
      .error (.invalidData "readonly transaction") ∧
    mvccSet { version := 3, readonly := true, active := [] } [7] [1] [] ≠
      .error DbError.readOnly := by
  refine ⟨rfl, fun h => ?_⟩
  rw [show mvccSet { version := 3, readonly := true, active := [] } [7] [1] [] =
    .error (.invalidData "readonly transaction") from rfl] at h
  simp at h

/-- C8 (amended): for every read-only transaction, `set` and `delete`
fail with `InvalidData("readonly transaction")` (the `errdata!` result,
not the unused `ReadOnly` kind) and never return a new engine state, so
the engine is left unchanged. -/
theorem c8_readonly_write_fails (s : TransactionState) (key : Bytes)
    (value : Option Bytes) (e : EngineState) (h : s.readonly = true) :
    mvccWrite s key value e = .error (.invalidData "readonly transaction") := by
  unfold mvccWrite
  rw [if_pos h]

/-- C8 (witness): the amended claim at a concrete read-only
transaction. -/
theorem c8_readonly_write_fails_witness :
    mvccWrite { version := 3, readonly := true, active := [] } [7] (some [1]) [] =
      .error (.invalidData "readonly transaction") :=
  c8_readonly_write_fails { version := 3, readonly := true, active := [] } [7]
    (some [1]) [] rfl

/- ## Ordering of the encoded MVCC key space -/

theorem bytesLt_cons_lt {a b : Nat} (h : a < b) (x y : Bytes) :
    bytesLt (a :: x) (b :: y) = true := by
  unfold bytesLt
  simp only [bytesCmp, if_pos h]
  rfl

theorem bytesCmp_cons_same (a : Nat) (x y : Bytes) :
    bytesCmp (a :: x) (a :: y) = bytesCmp x y := by
  simp [bytesCmp]

/-- Comparison of two encoded `Version` keys: user key first, then
version, matching the logical order of the composite. -/
theorem bytesCmp_version_keys (k k2 : Bytes) {v v2 : Nat} (hv : v < 2 ^ 64)
    (hv2 : v2 < 2 ^ 64) :
    bytesCmp (encodeMKey (.version k v)) (encodeMKey (.version k2 v2)) =
      if k = k2 then (if v = v2 then Ordering.eq else if v < v2 then Ordering.lt
        else Ordering.gt)
      else bytesCmp k k2 := by
  have hv8 : v < 256 ^ 8 := by omega
  have hv28 : v2 < 256 ^ 8 := by omega
  show bytesCmp (4 :: (serBytes k ++ beBytes 8 v)) (4 :: (serBytes k2 ++ beBytes 8 v2)) = _
  rw [bytesCmp_cons_same, bytesCmp_serBytes_append]
  by_cases hk : k = k2
  · rw [if_pos hk, if_pos hk]
    have h1 : beBytes 8 v = beBytes 8 v ++ [] := by simp
    have h2 : beBytes 8 v2 = beBytes 8 v2 ++ [] := by simp
    rw [h1, h2, bytesCmp_beBytes_append hv8 hv28]
    by_cases he : v = v2
    · rw [if_pos he, if_pos he]
      rfl
    · rw [if_neg he, if_neg he]
  · rw [if_neg hk, if_neg hk]

theorem bytesLt_version_keys (k : Bytes) {v w : Nat} (hv : v < 2 ^ 64) (hw : w < 2 ^ 64) :
    bytesLt (encodeMKey (.version k v)) (encodeMKey (.version k w)) = decide (v < w) := by
  unfold bytesLt
  rw [bytesCmp_version_keys k k hv hw, if_pos rfl]
  by_cases he : v = w
  · subst he
    rw [if_pos rfl]
    have hnl : ¬ v < v := lt_irrefl v
    simp only [hnl, decide_eq_false]
    rfl
  · rw [if_neg he]
    by_cases hl : v < w
    · rw [if_pos hl]
      simp only [hl, decide_eq_true_eq]
      rfl
    · rw [if_neg hl]
      simp only [hl, decide_eq_false]
      rfl

/-- Range isolation: a well-formed encoded key lying (in byte order)
between `Version(k, lower)` and `Version(k, upper)` is a `Version(k, v)`
key with `lower ≤ v ≤ upper`. -/
theorem version_range_key {m : MKey} (hm : mkWF m = true) {k : Bytes} {lower upper : Nat}
    (hl : lower < 2 ^ 64) (hu : upper < 2 ^ 64)
    (h1 : bytesLt (encodeMKey m) (encodeMKey (.version k lower)) = false)
    (h2 : bytesLt (encodeMKey (.version k upper)) (encodeMKey m) = false) :
    ∃ v, m = .version k v ∧ lower ≤ v ∧ v ≤ upper := by
  cases m with
  | nextVersion =>
    exact absurd h1 (by rw [show encodeMKey .nextVersion = 0 :: [] from rfl,
      show encodeMKey (.version k lower) = 4 :: (serBytes k ++ beBytes 8 lower) from rfl,
      bytesLt_cons_lt (by norm_num)]; simp)
  | active v =>
    exact absurd h1 (by rw [show encodeMKey (.active v) = 1 :: beBytes 8 v from rfl,
      show encodeMKey (.version k lower) = 4 :: (serBytes k ++ beBytes 8 lower) from rfl,
      bytesLt_cons_lt (by norm_num)]; simp)
  | snapshot v =>
    exact absurd h1 (by rw [show encodeMKey (.snapshot v) = 2 :: beBytes 8 v from rfl,
      show encodeMKey (.version k lower) = 4 :: (serBytes k ++ beBytes 8 lower) from rfl,
      bytesLt_cons_lt (by norm_num)]; simp)
  | activeWrite v k2 =>
    exact absurd h1 (by
      rw [show encodeMKey (.activeWrite v k2) = 3 :: (beBytes 8 v ++ serBytes k2) from rfl,
        show encodeMKey (.version k lower) = 4 :: (serBytes k ++ beBytes 8 lower) from rfl,
        bytesLt_cons_lt (by norm_num)]
      simp)
  | unversioned k2 =>
    exact absurd h2 (by
      rw [show encodeMKey (.unversioned k2) = 5 :: serBytes k2 from rfl,
        show encodeMKey (.version k upper) = 4 :: (serBytes k ++ beBytes 8 upper) from rfl,
        bytesLt_cons_lt (by norm_num)]
      simp)
  | version k2 v =>
    have hv : v < 2 ^ 64 := by have := hm; simp [mkWF] at this; omega
    by_cases hk : k2 = k
    · subst hk
      refine ⟨v, rfl, ?_, ?_⟩
      · by_contra hlt
        have : bytesLt (encodeMKey (.version k2 v)) (encodeMKey (.version k2 lower)) = true := by
          rw [bytesLt_version_keys k2 hv hl]
          simp
          omega
        rw [this] at h1
        cases h1
      · by_contra hlt
        have : bytesLt (encodeMKey (.version k2 upper)) (encodeMKey (.version k2 v)) = true := by
          rw [bytesLt_version_keys k2 hu hv]
          simp
          omega
        rw [this] at h2
        cases h2
    · exfalso
      have hc1 : bytesCmp (encodeMKey (.version k2 v)) (encodeMKey (.version k lower)) =
          bytesCmp k2 k := by
        rw [bytesCmp_version_keys k2 k hv hl, if_neg hk]
      have hc2 : bytesCmp (encodeMKey (.version k upper)) (encodeMKey (.version k2 v)) =
          bytesCmp k k2 := by
        rw [bytesCmp_version_keys k k2 hu hv, if_neg (fun hq => hk hq.symm)]
      have hn1 : bytesCmp k2 k ≠ Ordering.lt := by
        intro hq
        have : bytesLt (encodeMKey (.version k2 v)) (encodeMKey (.version k lower)) = true := by
          unfold bytesLt
          rw [hc1, hq]
          rfl
        rw [this] at h1
        cases h1
      have hn2 : bytesCmp k k2 ≠ Ordering.lt := by
        intro hq
        have : bytesLt (encodeMKey (.version k upper)) (encodeMKey (.version k2 v)) = true := by
          unfold bytesLt
          rw [hc2, hq]
          rfl
        rw [this] at h2
        cases h2
      rcases hc : bytesCmp k2 k with _ | _ | _
      · exact hn1 hc
      · exact hk (bytesCmp_eq_iff.mp hc)
      · apply hn2
        rw [bytesCmp_swap, hc]
        rfl

/- ## Well-formed engine states -/

/-- A key is canonical when it decodes to a well-formed MVCC key that
re-encodes to itself. -/
def isCanonKey (k : Bytes) : Bool :=
  match decodeMKey k with
  | .ok m => mkWF m && decide (encodeMKey m = k)
  | .error _ => false

/-- Well-formed engine state: strictly sorted in byte order (the
`BTreeMap` invariant) and every key canonical (the MVCC layer only ever
stores encoded `Key`s). -/
def EngineWF (e : EngineState) : Prop :=
  e.Pairwise (fun p q => bytesLt p.1 q.1 = true) ∧ ∀ p ∈ e, isCanonKey p.1 = true

instance (e : EngineState) : Decidable (EngineWF e) := by
  unfold EngineWF
  exact instDecidableAnd

theorem engScan_mem {lo hi : Bytes} {e : EngineState} {p : Bytes × Bytes} :
    p ∈ engScan lo hi e ↔
      p ∈ e ∧ bytesLt p.1 lo = false ∧ bytesLt hi p.1 = false := by
  unfold engScan
  rw [List.mem_filter]
  simp [Bool.and_eq_true]

theorem engScan_pairwise {lo hi : Bytes} {e : EngineState}
    (h : e.Pairwise (fun p q => bytesLt p.1 q.1 = true)) :
    (engScan lo hi e).Pairwise (fun p q => bytesLt p.1 q.1 = true) :=
  List.Pairwise.sublist (List.filter_sublist e) h

/-- The last element of a list sorted by a relation is related from every
other element. -/
theorem pairwise_getLast_max {α : Type} {R : α → α → Prop} {l : List α} {p : α}
    (h : l.Pairwise R) (hl : l.getLast? = some p) :
    p ∈ l ∧ ∀ q ∈ l, q = p ∨ R q p := by
  induction l with
  | nil => cases hl
  | cons x xs ih =>
    cases xs with
    | nil =>
      simp at hl
      subst hl
      exact ⟨List.mem_singleton_self x, by intro q hq; left; simpa using hq⟩
    | cons y ys =>
      have hl2 : (y :: ys).getLast? = some p := by
        rwa [List.getLast?_cons_cons] at hl
      have hp := List.pairwise_cons.mp h
      obtain ⟨hmem, hmax⟩ := ih hp.2 hl2
      refine ⟨List.mem_cons_of_mem x hmem, ?_⟩
      intro q hq
      rcases List.mem_cons.mp hq with hq1 | hq2
      · subst hq1
        right
        exact hp.1 p hmem
      · exact hmax q hq2

theorem versionKey_inj {key : Bytes} {v w : Nat} (hv : v < 2 ^ 64) (hw : w < 2 ^ 64)
    (h : encodeMKey (.version key v) = encodeMKey (.version key w)) : v = w := by
  have h1 := decodeMKey_encodeMKey (.version key v) (by simp [mkWF]; omega)
  have h2 := decodeMKey_encodeMKey (.version key w) (by simp [mkWF]; omega)
  rw [h] at h1
  rw [h1] at h2
  simp only [Except.ok.injEq, MKey.version.injEq] at h2
  exact h2.2

/-- Every element of a `Version(key, lower) ..= Version(key, upper)` scan
of a well-formed engine is a `Version(key, v)` record with
`lower ≤ v ≤ upper`. -/
theorem scanVersion_elem {e : EngineState} (hwf : EngineWF e) {key : Bytes}
    {lower upper : Nat} (hl : lower < 2 ^ 64) (hu : upper < 2 ^ 64) {p : Bytes × Bytes}
    (hp : p ∈ engScan (encodeMKey (.version key lower)) (encodeMKey (.version key upper)) e) :
    ∃ v, p.1 = encodeMKey (.version key v) ∧ lower ≤ v ∧ v ≤ upper := by
  obtain ⟨hpe, hb1, hb2⟩ := engScan_mem.mp hp
  have hcanon := hwf.2 p hpe
  unfold isCanonKey at hcanon
  rcases hd : decodeMKey p.1 with e2 | m
  · rw [hd] at hcanon
    cases hcanon
  · rw [hd] at hcanon
    rw [Bool.and_eq_true] at hcanon
    have hsplit := hcanon
    have hm : mkWF m = true := hsplit.1
    have henc : encodeMKey m = p.1 := of_decide_eq_true hsplit.2
    rw [← henc] at hb1 hb2
    obtain ⟨v, hveq, hlv, hvu⟩ := version_range_key hm hl hu hb1 hb2
    exact ⟨v, by rw [← henc, hveq], hlv, hvu⟩

/-- A `Version(key, v)` record with `lower ≤ v ≤ upper` lies in the scan
range. -/
theorem scanVersion_mem {e : EngineState} {key : Bytes} {lower upper v : Nat}
    {val : Bytes} (hv : v < 2 ^ 64) (hl : lower < 2 ^ 64) (hu : upper < 2 ^ 64)
    (hmem : (encodeMKey (.version key v), val) ∈ e) (h1 : lower ≤ v) (h2 : v ≤ upper) :
    (encodeMKey (.version key v), val) ∈
      engScan (encodeMKey (.version key lower)) (encodeMKey (.version key upper)) e := by
  refine engScan_mem.mpr ⟨hmem, ?_, ?_⟩
  · show bytesLt (encodeMKey (.version key v)) (encodeMKey (.version key lower)) = false
    rw [bytesLt_version_keys key hv hl]
    simp
    omega
  · show bytesLt (encodeMKey (.version key upper)) (encodeMKey (.version key v)) = false
    rw [bytesLt_version_keys key hu hv]
    simp
    omega

/- ## Claim C3 -/

/-- The claim's conflict condition, following the spec's words: some
record exists in the range `Version(k, lower) … Version(k, u64::MAX)`
whose version is not visible to the transaction. -/
def specConflictAny (s : TransactionState) (key : Bytes) (e : EngineState) : Bool :=
  (engScan (encodeMKey (.version key (s.active.head?.getD (s.version + 1))))
      (encodeMKey (.version key (2 ^ 64 - 1))) e).any fun p =>
    match decodeMKey p.1 with
    | .ok (.version _ v) => !(s.is_visible v)
    | _ => false

/-- The amended conflict condition, in the spec's vocabulary over stored
records: among the records of `key` with version at least
`lower = min(active) or version + 1`, the one with the greatest version
exists and is not visible. -/
def conflictOnGreatest (s : TransactionState) (key : Bytes) (e : EngineState) : Prop :=
  ∃ v val, v < 2 ^ 64 ∧ (encodeMKey (.version key v), val) ∈ e ∧
    (s.active.head?.getD (s.version + 1)) ≤ v ∧
    s.is_visible v = false ∧
    (∀ w val2, w < 2 ^ 64 → (encodeMKey (.version key w), val2) ∈ e →
      (s.active.head?.getD (s.version + 1)) ≤ w → w ≤ v)

/-- C3 (counterexample): the claim says a write fails with the error kind
`Serialization` if and only if some record in the conflict range is not
visible.  Both directions fail on the code.  At the state holding
`Version("5", 2)` and `Version("5", 3)` with a transaction at version 7
whose active set is `{2}`, the range from `lower = 2` contains the
invisible version 2, yet the write succeeds because the code inspects
only the `last()` record of the scan (version 3, visible).  And when a
conflict is detected (a transaction at version 1 against a stored
`Version("5", 5)`), the error is `errdata!("write conflict")`, i.e.
`InvalidData`, not `Serialization`. -/
theorem c3_counterexample :
    specConflictAny { version := 7, readonly := false, active := [2] } [5]
      [(encodeMKey (.version [5] 2), binEncodeOpt (some [9])),
       (encodeMKey (.version [5] 3), binEncodeOpt (some [8]))] = true ∧
    mvccWrite { version := 7, readonly := false, active := [2] } [5] (some [1])
      [(encodeMKey (.version [5] 2), binEncodeOpt (some [9])),
       (encodeMKey (.version [5] 3), binEncodeOpt (some [8]))] =
      .ok (mvccWriteApply { version := 7, readonly := false, active := [2] } [5] (some [1])
        [(encodeMKey (.version [5] 2), binEncodeOpt (some [9])),
         (encodeMKey (.version [5] 3), binEncodeOpt (some [8]))]) ∧
    mvccWrite { version := 1, readonly := false, active := [] } [5] (some [1])
      [(encodeMKey (.version [5] 5), binEncodeOpt (some [9]))] =
      .error (.invalidData "write conflict") ∧
    (DbError.invalidData "write conflict" ≠ DbError.serialization) := by
  refine ⟨rfl, rfl, rfl, by simp⟩

/-- C3 (amended): for a read/write transaction, a `set`/`delete` fails —
with `errdata!("write conflict")`, i.e. the `InvalidData` kind, not
`Serialization` — if and only if the record with the greatest version at
least `lower = min(active set) or version + 1` for that key exists and is
not visible (the code checks only the last record of the ascending range
scan); otherwise the write succeeds and stores the `ActiveWrite(V, k)`
marker and the `Version(k, V)` record. -/
theorem c3_write_conflict_behavior (s : TransactionState) (key : Bytes)
    (value : Option Bytes) (e : EngineState) (hro : s.readonly = false)
    (hwf : EngineWF e) (hlow : s.active.head?.getD (s.version + 1) < 2 ^ 64) :
    (mvccWrite s key value e = .error (.invalidData "write conflict") ↔
      conflictOnGreatest s key e) ∧
    (¬ conflictOnGreatest s key e →
      mvccWrite s key value e = .ok (mvccWriteApply s key value e)) := by
  have hu : (2 : Nat) ^ 64 - 1 < 2 ^ 64 := by norm_num
  set lower := s.active.head?.getD (s.version + 1) with hlodef
  set scn := engScan (encodeMKey (.version key lower))
    (encodeMKey (.version key (2 ^ 64 - 1))) e with hscn
  have hwrite : mvccWrite s key value e =
      match scn.getLast? with
      | some (k2, _) =>
        match decodeMKey k2 with
        | .ok (.version _ v) =>
          if s.is_visible v then .ok (mvccWriteApply s key value e)
          else .error (.invalidData "write conflict")
        | .ok _ => .error (.invalidData "require Key::Version")
        | .error e2 => .error e2
      | none => .ok (mvccWriteApply s key value e) := by
    unfold mvccWrite
    rw [if_neg (by rw [hro]; exact Bool.false_ne_true)]
  rcases hlast : scn.getLast? with _ | ⟨k2, val⟩
  · -- empty scan: no record in the range at all
    have hempty : scn = [] := by
      cases hs : scn with
      | nil => rfl
      | cons a l =>
        rw [hs] at hlast
        simp at hlast
    have hnoc : ¬ conflictOnGreatest s key e := by
      rintro ⟨v, vl, hv, hmem, hlv, _, _⟩
      have : (encodeMKey (.version key v), vl) ∈ scn :=
        scanVersion_mem hv hlow hu hmem hlv (by omega)
      rw [hempty] at this
      cases this
    constructor
    · rw [hwrite, hlast]
      constructor
      · intro h
        cases h
      · intro hc
        exact absurd hc hnoc
    · intro _
      rw [hwrite, hlast]
  · -- non-empty scan: the last record is the greatest version in range
    have hmem : (k2, val) ∈ scn := by
      have := pairwise_getLast_max (engScan_pairwise hwf.1) hlast
      exact this.1
    obtain ⟨v, hk2p, hlv, hvu⟩ := scanVersion_elem hwf hlow hu hmem
    have hk2 : k2 = encodeMKey (.version key v) := hk2p
    have hv64 : v < 2 ^ 64 := by omega
    have hdec : decodeMKey k2 = .ok (.version key v) := by
      rw [hk2]
      exact decodeMKey_encodeMKey _ (by simp [mkWF]; omega)
    have hmax : ∀ w val2, w < 2 ^ 64 → (encodeMKey (.version key w), val2) ∈ e →
        lower ≤ w → w ≤ v := by
      intro w val2 hw hwm hlw
      have hws : (encodeMKey (.version key w), val2) ∈ scn :=
        scanVersion_mem hw hlow hu hwm hlw (by omega)
      have hlastmax := pairwise_getLast_max (engScan_pairwise hwf.1) hlast
      rcases hlastmax.2 _ hws with heq | hltw
      · have hkeq : encodeMKey (.version key w) = encodeMKey (.version key v) := by
          have h1 : encodeMKey (.version key w) = k2 := congrArg Prod.fst heq
          rw [h1, hk2]
        have := versionKey_inj hw hv64 hkeq
        omega
      · have hbl : bytesLt (encodeMKey (.version key w)) (encodeMKey (.version key v)) = true := by
          rw [← hk2]
          exact hltw
        rw [bytesLt_version_keys key hw hv64] at hbl
        have := of_decide_eq_true hbl
        omega
    have hve : (encodeMKey (.version key v), val) ∈ e := by
      have hh := (engScan_mem.mp hmem).1
      rw [hk2] at hh
      exact hh
    have hwrite2 : mvccWrite s key value e =
        if s.is_visible v then Except.ok (mvccWriteApply s key value e)
        else Except.error (DbError.invalidData "write conflict") := by
      rw [hwrite]
      simp only [hlast, hdec]
    by_cases hvis : s.is_visible v = true
    · rw [hwrite2, if_pos hvis]
      have hnoc : ¬ conflictOnGreatest s key e := by
        rintro ⟨v2, val2, hv2, hmem2, hlv2, hinvis2, hmax2⟩
        have h1 : v2 ≤ v := hmax v2 val2 hv2 hmem2 hlv2
        have h2 : v ≤ v2 := hmax2 v val hv64 hve hlv
        have hvv : v = v2 := by omega
        rw [← hvv, hvis] at hinvis2
        cases hinvis2
      constructor
      · constructor
        · intro h
          cases h
        · intro hc
          exact absurd hc hnoc
      · intro _
        rfl
    · have hvisf : s.is_visible v = false := by
        revert hvis
        cases s.is_visible v <;> simp
      rw [hwrite2, if_neg (by rw [hvisf]; exact Bool.false_ne_true)]
      have hcg : conflictOnGreatest s key e := ⟨v, val, hv64, hve, hlv, hvisf, hmax⟩
      constructor
      · exact ⟨fun _ => hcg, fun _ => rfl⟩
      · intro hn
        exact absurd hcg hn

/-- Witness for C3: a transaction at version 1 against a stored
`Version("5", 5)` record satisfies every hypothesis, and the amended
characterization holds there. -/
theorem c3_write_conflict_behavior_witness :
    ({ version := 1, readonly := false, active := [] } : TransactionState).readonly = false ∧
    EngineWF [(encodeMKey (.version [5] 5), binEncodeOpt (some [9]))] ∧
    (({ version := 1, readonly := false, active := [] } :
        TransactionState).active.head?.getD (1 + 1) < 2 ^ 64) ∧
    (mvccWrite { version := 1, readonly := false, active := [] } [5] (some [1])
        [(encodeMKey (.version [5] 5), binEncodeOpt (some [9]))] =
      .error (.invalidData "write conflict") ↔
      conflictOnGreatest { version := 1, readonly := false, active := [] } [5]
        [(encodeMKey (.version [5] 5), binEncodeOpt (some [9]))]) :=
  ⟨rfl, by decide, by decide,
    (c3_write_conflict_behavior { version := 1, readonly := false, active := [] } [5]
      (some [1]) [(encodeMKey (.version [5] 5), binEncodeOpt (some [9]))]
      rfl (by decide) (by decide)).1⟩

/- ## Claim C4 -/

/-- Well-formedness of the stored payloads of one key: every `Version`
record of `key` carries a payload that `bin_coder` decodes (as the source
stores them via `bincode`); `Transaction::get` decodes the payload of
every record it passes over, so this is needed for the scan loop not to
error out on an invisible record. -/
def payloadsWF (key : Bytes) (e : EngineState) : Bool :=
  e.all fun p =>
    match decodeMKey p.1 with
    | .ok (.version k2 _) =>
      if k2 = key then
        match binDecodeOpt p.2 with
        | .ok _ => true
        | .error _ => false
      else true
    | _ => true

theorem payloadsWF_mem {key : Bytes} {e : EngineState} (h : payloadsWF key e = true)
    {p : Bytes × Bytes} (hp : p ∈ e) {v : Nat}
    (hd : decodeMKey p.1 = .ok (.version key v)) : ∃ o, binDecodeOpt p.2 = .ok o := by
  have h2 := List.all_eq_true.mp h p hp
  simp only [hd, if_true] at h2
  rcases hbv : binDecodeOpt p.2 with e2 | o
  · simp only [hbv] at h2
    exact absurd h2 (by decide)
  · exact ⟨o, rfl⟩

/-- If every record in the list is a decodable `Version` record whose
version is invisible, the get loop returns `Ok(None)`. -/
theorem mvccGetAux_none (s : TransactionState) :
    ∀ l : List (Bytes × Bytes),
      (∀ p ∈ l, ∃ k2 v o, decodeMKey p.1 = .ok (.version k2 v) ∧
        binDecodeOpt p.2 = .ok o ∧ s.is_visible v = false) →
      mvccGetAux s l = .ok none
  | [], _ => rfl
  | q :: rest, h => by
    obtain ⟨qk, qv⟩ := q
    obtain ⟨k2, v, o, hdk, hdv, hinv⟩ := h _ (List.mem_cons_self _ _)
    have hdk2 : decodeMKey qk = .ok (.version k2 v) := hdk
    have hdv2 : binDecodeOpt qv = .ok o := hdv
    have ih := mvccGetAux_none s rest (fun p hp => h p (List.mem_cons_of_mem _ hp))
    simp only [mvccGetAux, hdv2, hdk2, hinv, Bool.false_eq_true, if_false]
    exact ih

/-- If the records before `p` are all decodable and invisible, and `p` is
a decodable `Version` record whose version is visible, the get loop
returns `p`'s decoded payload. -/
theorem mvccGetAux_found (s : TransactionState) (k2 : Bytes) (v : Nat) (o : Option Bytes)
    (p : Bytes × Bytes) (l2 : List (Bytes × Bytes))
    (hdk : decodeMKey p.1 = .ok (.version k2 v)) (hvis : s.is_visible v = true)
    (hdv : binDecodeOpt p.2 = .ok o) :
    ∀ l1 : List (Bytes × Bytes),
      (∀ q ∈ l1, ∃ k3 w o2, decodeMKey q.1 = .ok (.version k3 w) ∧
        binDecodeOpt q.2 = .ok o2 ∧ s.is_visible w = false) →
      mvccGetAux s (l1 ++ p :: l2) = .ok o
  | [], _ => by
    obtain ⟨pk, pv⟩ := p
    have hdk2 : decodeMKey pk = .ok (.version k2 v) := hdk
    have hdv2 : binDecodeOpt pv = .ok o := hdv
    simp only [List.nil_append, mvccGetAux, hdv2, hdk2, hvis, if_true]
  | q :: l1t, h => by
    obtain ⟨qk, qv⟩ := q
    obtain ⟨k3, w, o2, hq1, hq2, hq3⟩ := h _ (List.mem_cons_self _ _)
    have hq1b : decodeMKey qk = .ok (.version k3 w) := hq1
    have hq2b : binDecodeOpt qv = .ok o2 := hq2
    have ih := mvccGetAux_found s k2 v o p l2 hdk hvis hdv l1t
      (fun r hr => h r (List.mem_cons_of_mem _ hr))
    simp only [List.cons_append, mvccGetAux, hq2b, hq1b, hq3, Bool.false_eq_true, if_false]
    exact ih

/-- C4: both halves of the claim, for well-formed engines.  (a) the
visibility predicate is exactly `v ∉ A ∧ (if R then v < V else v ≤ V)`;
(b) if no stored version of the key is visible, `get` returns `None`;
(c) if a greatest visible version exists and its payload decodes to `o`,
`get` returns `o` (the descending scan stops at the first visible
record). -/
theorem c4_visibility_and_get (s : TransactionState) (key : Bytes) (e : EngineState)
    (hwf : EngineWF e) (hpl : payloadsWF key e = true) (hver : s.version < 2 ^ 64) :
    (∀ v, s.is_visible v = true ↔
      (v ∉ s.active ∧ (if s.readonly then v < s.version else v ≤ s.version))) ∧
    ((∀ v val, v < 2 ^ 64 → (encodeMKey (.version key v), val) ∈ e →
        s.is_visible v = false) →
      mvccGet s key e = .ok none) ∧
    (∀ v val o, v < 2 ^ 64 → (encodeMKey (.version key v), val) ∈ e →
      s.is_visible v = true → binDecodeOpt val = .ok o →
      (∀ w val2, w < 2 ^ 64 → (encodeMKey (.version key w), val2) ∈ e →
        s.is_visible w = true → w ≤ v) →
      mvccGet s key e = .ok o) := by
  have hl0 : (0 : Nat) < 2 ^ 64 := by norm_num
  refine ⟨?_, ?_, ?_⟩
  · -- (a) the visibility formula
    intro v
    unfold TransactionState.is_visible
    by_cases hc : s.active.contains v = true
    · rw [if_pos hc]
      have hv : v ∈ s.active := List.elem_iff.mp hc
      simp [hv]
    · rw [if_neg hc]
      have hv : v ∉ s.active := fun hm => hc (List.elem_iff.mpr hm)
      by_cases hr : s.readonly = true
      · rw [if_pos hr]
        simp [hv, hr]
      · have hr2 : s.readonly = false := by
          revert hr
          cases s.readonly <;> simp
        rw [if_neg hr]
        simp [hv, hr2]
  · -- (b) no visible version: Ok(None)
    intro hnone
    unfold mvccGet
    apply mvccGetAux_none
    intro p hp
    rw [List.mem_reverse] at hp
    obtain ⟨w, hw1, _, hw3⟩ := scanVersion_elem hwf hl0 hver hp
    have hw64 : w < 2 ^ 64 := by omega
    have hdk : decodeMKey p.1 = .ok (.version key w) := by
      rw [hw1]
      exact decodeMKey_encodeMKey _ (by simp [mkWF]; omega)
    obtain ⟨o, ho⟩ := payloadsWF_mem hpl (engScan_mem.mp hp).1 hdk
    refine ⟨key, w, o, hdk, ho, ?_⟩
    have hpe : (encodeMKey (.version key w), p.2) ∈ e := by
      have := (engScan_mem.mp hp).1
      rw [← hw1]
      exact this
    exact hnone w p.2 hw64 hpe
  · -- (c) greatest visible version found
    intro v val o hv64 hmem hvis hdec hmax
    have hvle : v ≤ s.version := by
      unfold TransactionState.is_visible at hvis
      by_cases hc : s.active.contains v = true
      · rw [if_pos hc] at hvis
        cases hvis
      · rw [if_neg hc] at hvis
        by_cases hr : s.readonly = true
        · rw [if_pos hr] at hvis
          have := of_decide_eq_true hvis
          omega
        · rw [if_neg hr] at hvis
          exact of_decide_eq_true hvis
    have hscanmem : (encodeMKey (.version key v), val) ∈
        engScan (encodeMKey (.version key 0)) (encodeMKey (.version key s.version)) e :=
      scanVersion_mem hv64 hl0 hver hmem (Nat.zero_le v) hvle
    unfold mvccGet
    have hrevmem : (encodeMKey (.version key v), val) ∈
        (engScan (encodeMKey (.version key 0)) (encodeMKey (.version key s.version)) e).reverse :=
      List.mem_reverse.mpr hscanmem
    obtain ⟨l1, l2, hsplit⟩ := List.append_of_mem hrevmem
    rw [hsplit]
    have hpair : ((engScan (encodeMKey (.version key 0))
        (encodeMKey (.version key s.version)) e).reverse).Pairwise
        (fun p q => bytesLt q.1 p.1 = true) := by
      rw [List.pairwise_reverse]
      exact engScan_pairwise hwf.1
    rw [hsplit, List.pairwise_append] at hpair
    apply mvccGetAux_found s key v o _ l2
      (by simp only
          exact decodeMKey_encodeMKey _ (by simp [mkWF]; omega))
      hvis (by simp only; exact hdec)
    intro q hq
    have hqrev : q ∈ (engScan (encodeMKey (.version key 0))
        (encodeMKey (.version key s.version)) e).reverse := by
      rw [hsplit]
      exact List.mem_append_left _ hq
    have hqscan := List.mem_reverse.mp hqrev
    obtain ⟨w, hw1, _, hw3⟩ := scanVersion_elem hwf hl0 hver hqscan
    have hw64 : w < 2 ^ 64 := by omega
    have hdkq : decodeMKey q.1 = .ok (.version key w) := by
      rw [hw1]
      exact decodeMKey_encodeMKey _ (by simp [mkWF]; omega)
    obtain ⟨o2, ho2⟩ := payloadsWF_mem hpl (engScan_mem.mp hqscan).1 hdkq
    refine ⟨key, w, o2, hdkq, ho2, ?_⟩
    have hgt : bytesLt (encodeMKey (.version key v)) q.1 = true :=
      hpair.2.2 q hq _ (List.mem_cons_self _ _)
    rw [hw1, bytesLt_version_keys key hv64 hw64] at hgt
    have hvw : v < w := of_decide_eq_true hgt
    by_cases hwvis : s.is_visible w = true
    · have hqe : (encodeMKey (.version key w), q.2) ∈ e := by
        have := (engScan_mem.mp hqscan).1
        rw [← hw1]
        exact this
      have := hmax w q.2 hw64 hqe hwvis
      omega
    · revert hwvis
      cases s.is_visible w <;> simp

/-- Witness for C4: a store holding a single visible `Version("7", 2)`
record with payload `Some [42]`, read by a read/write transaction at
version 3: every hypothesis holds and `get` returns `Some [42]`. -/
theorem c4_visibility_and_get_witness :
    EngineWF [(encodeMKey (.version [7] 2), binEncodeOpt (some [42]))] ∧
    payloadsWF [7] [(encodeMKey (.version [7] 2), binEncodeOpt (some [42]))] = true ∧
    (3 : Nat) < 2 ^ 64 ∧
    mvccGet { version := 3, readonly := false, active := [] } [7]
      [(encodeMKey (.version [7] 2), binEncodeOpt (some [42]))] = .ok (some [42]) :=
  ⟨by decide, by decide, by decide,
    (c4_visibility_and_get { version := 3, readonly := false, active := [] } [7]
        [(encodeMKey (.version [7] 2), binEncodeOpt (some [42]))]
        (by decide) (by decide) (by decide)).2.2
      2 (binEncodeOpt (some [42])) (some [42]) (by decide)
      (List.mem_cons_self _ _) (by decide) rfl
      (fun w val2 hw hm _ => by
        rcases List.mem_cons.mp hm with h | h
        · have h1 : encodeMKey (.version [7] w) = encodeMKey (.version [7] 2) :=
            congrArg Prod.fst h
          have := versionKey_inj hw (by decide) h1
          omega
        · cases h)⟩

/- ## Bitcask log records (src/src/storage/bitcask.rs) -/

/-- `file.read_exact` of `n` bytes at position `p`, over the file
modelled as a byte list: fails (an I/O `Err` in the source) when fewer
than `n` bytes remain. -/
def readExact (file : List Nat) (p n : Nat) : Except Unit (List Nat) :=
  if p + n ≤ file.length then .ok ((file.drop p).take n) else .error ()

/-- Embeds `LogEntry` (src/src/storage/bitcask.rs lines 488-495): `ksz`
is the parsed `u32`, `value_sz` the parsed 32-bit pattern (an `i32` in
the source) kept as a `Nat` below `2^32`. -/
structure LogEntryM where
  crc : List Nat
  tstamp : List Nat
  ksz : Nat
  value_sz : Nat
  key : List Nat
  value : List Nat
deriving DecidableEq

/-- Embeds `LogEntry::from_bytes` (lines 579-595): fixed offsets
0/8/12/16/20; the value is sliced only when the `i32` pattern is
positive, i.e. strictly between 0 and `2^31`.  (Out-of-range slices
panic in the source; the `take`s here are only exercised in range.) -/
def logFromBytes (bytes : List Nat) : LogEntryM :=
  let ksz := beVal ((bytes.drop 12).take 4)
  let value_sz := beVal ((bytes.drop 16).take 4)
  { crc := bytes.take 8
    tstamp := (bytes.drop 8).take 4
    ksz := ksz
    value_sz := value_sz
    key := (bytes.drop 20).take ksz
    value := if 0 < value_sz ∧ value_sz < 2 ^ 31 then (bytes.drop (20 + ksz)).take value_sz
      else [] }

/-- Embeds `LogEntry::get_entry` (lines 567-577): re-serialize the
parsed fields. -/
def logGetEntry (e : LogEntryM) : List Nat :=
  e.crc ++ e.tstamp ++ beBytes 4 e.ksz ++ beBytes 4 e.value_sz ++ e.key ++ e.value

/-- Embeds `Log::check_crc` (lines 631-637), with the eight-byte window
`l ↦ Sha3_256(l)[15..23]` abstracted as the `hash` parameter. -/
def check_crc (hash : List Nat → List Nat) (current_crc check_parts : List Nat) : Bool :=
  current_crc == hash check_parts

/-- Embeds `Log::read_entry` (lines 663-713): read `ksz` at
`crc_pos + 12` and `value_sz` at `crc_pos + 16` (the latter as a `u32`),
re-read the whole `20 + ksz + value_sz` window (`u32` arithmetic), parse
it, and compare the stored crc with the hash of the re-serialized record
past the crc.  On a mismatch the source returns `Ok(None)`, not an
error. -/
def read_entry (hash : List Nat → List Nat) (file : List Nat) (crc_pos : Nat) :
    Except Unit (Option LogEntryM) := do
  let ksz_v ← readExact file (crc_pos + 12) 4
  let vsz_v ← readExact file (crc_pos + 16) 4
  let entry ← readExact file crc_pos ((20 + beVal ksz_v + beVal vsz_v) % 2 ^ 32)
  let log_entry := logFromBytes entry
  if check_crc hash log_entry.crc ((logGetEntry log_entry).drop 8) then
    .ok (some log_entry)
  else
    .ok none

/-- The keydir-hit path of `BitCask::get` (lines 281-306): read the
entry at the stored position; `Some` yields the entry's value and `None`
(the crc-mismatch outcome) yields `Ok(None)`. -/
def bitcaskGetAt (hash : List Nat → List Nat) (file : List Nat) (crc_pos : Nat) :
    Except Unit (Option (List Nat)) :=
  match read_entry hash file crc_pos with
  | .error e2 => .error e2
  | .ok (some e) => .ok (some e.value)
  | .ok none => .ok none

/-- The bytes `LogEntry::new` + `build_crc` + `get_entry` append to the
log for one record (lines 506-577): `value_sz` is the `i32` `-1` pattern
exactly when the value is empty, and the crc is the hash of everything
after itself. -/
def mkLogEntryBytes (hash : List Nat → List Nat) (tstamp key value : List Nat) : List Nat :=
  let value_sz := if value.length = 0 then 2 ^ 32 - 1 else value.length
  let payload := tstamp ++ beBytes 4 key.length ++ beBytes 4 value_sz ++ key ++ value
  hash payload ++ payload

/- ## Claim C5 -/

/-- The payload (post-crc record bytes) of the C5 example record:
timestamp `[1,2,3,4]`, key `"k" = [107]`, value `[5]`. -/
def c5payload : List Nat :=
  [1, 2, 3, 4] ++ beBytes 4 1 ++ beBytes 4 1 ++ [107] ++ [5]

/-- A concrete stand-in for the Sha3 window: collision-free at
`c5payload`. -/
def c5hash (l : List Nat) : List Nat :=
  if l = c5payload then beBytes 8 0 else beBytes 8 1

/-- The example record's file bytes. -/
def c5file : List Nat := mkLogEntryBytes c5hash [1, 2, 3, 4] [107] [5]

/-- The same file with one post-crc byte altered: byte 8 (the first
timestamp byte) changed from 1 to 9. -/
def c5fileCorrupt : List Nat := c5file.set 8 9

/-- C5 (counterexample): the claim says a post-crc byte flip makes `get`
return the error kind `InvalidData` rather than any successful result.
In the code a crc mismatch makes `Log::read_entry` return `Ok(None)`
(bitcask.rs lines 710-712) and `BitCask::get` then returns `Ok(None)`:
flipping the first timestamp byte of a stored record yields the
successful result `Ok(None)`, not an error. -/
theorem c5_counterexample :
    c5fileCorrupt ≠ c5file ∧
    bitcaskGetAt c5hash c5file 0 = .ok (some [5]) ∧
    read_entry c5hash c5fileCorrupt 0 = .ok none ∧
    bitcaskGetAt c5hash c5fileCorrupt 0 = .ok none := by
  refine ⟨by decide, rfl, rfl, rfl⟩

/-- C5 (amended): for a stored record with a non-empty value, altering
the file anywhere past the crc while keeping the crc and the two size
fields intact makes `read_entry` return `Ok(None)` — provided the hash
window has no collision at this record.  `get` then returns `Ok(None)`:
the corruption is detected but reported as a silent miss (a successful
result), never as an `InvalidData` error and never as the corrupted
value.  (Altering the size fields instead reframes the read, which can
also fail with an I/O error; the embedding's error type records that
`read_entry` constructs no `InvalidData` on any path.) -/
theorem c5_corruption_silent_miss (hash : List Nat → List Nat)
    (tstamp key value : List Nat) (file2 : List Nat)
    (ht : tstamp.length = 4)
    (hkl : key.length < 2 ^ 32)
    (hvl : 0 < value.length) (hvl2 : value.length < 2 ^ 31)
    (hsum : 20 + key.length + value.length < 2 ^ 32)
    (hh8 : (hash (tstamp ++ beBytes 4 key.length ++ beBytes 4 value.length ++
      key ++ value)).length = 8)
    (hcoll : ∀ l, hash l = hash (tstamp ++ beBytes 4 key.length ++
        beBytes 4 value.length ++ key ++ value) →
      l = tstamp ++ beBytes 4 key.length ++ beBytes 4 value.length ++ key ++ value)
    (hlen : file2.length = (mkLogEntryBytes hash tstamp key value).length)
    (hcrc : file2.take 8 = (mkLogEntryBytes hash tstamp key value).take 8)
    (hsz : (file2.drop 12).take 8 = ((mkLogEntryBytes hash tstamp key value).drop 12).take 8)
    (hne : file2 ≠ mkLogEntryBytes hash tstamp key value) :
    read_entry hash file2 0 = .ok none ∧ bitcaskGetAt hash file2 0 = .ok none := by
  set payload := tstamp ++ beBytes 4 key.length ++ beBytes 4 value.length ++ key ++ value
    with hpay
  have hfile : mkLogEntryBytes hash tstamp key value = hash payload ++ payload := by
    unfold mkLogEntryBytes
    rw [if_neg (by omega)]
  have hplen : payload.length = 12 + key.length + value.length := by
    simp [hpay, beBytes_length, ht]
    omega
  have hflen : (mkLogEntryBytes hash tstamp key value).length =
      20 + key.length + value.length := by
    rw [hfile]
    simp [hh8, hplen]
    omega
  have hL : file2.length = 20 + key.length + value.length := by rw [hlen, hflen]
  have hd12 : (mkLogEntryBytes hash tstamp key value).drop 12 =
      beBytes 4 key.length ++ (beBytes 4 value.length ++ (key ++ value)) := by
    rw [hfile]
    have hp2 : hash payload ++ payload = (hash payload ++ tstamp) ++
        (beBytes 4 key.length ++ (beBytes 4 value.length ++ (key ++ value))) := by
      simp [hpay, List.append_assoc]
    rw [hp2]
    exact List.drop_left' (by simp [hh8, ht])
  have hwin : ((mkLogEntryBytes hash tstamp key value).drop 12).take 8 =
      beBytes 4 key.length ++ beBytes 4 value.length := by
    rw [hd12]
    rw [show beBytes 4 key.length ++ (beBytes 4 value.length ++ (key ++ value)) =
      (beBytes 4 key.length ++ beBytes 4 value.length) ++ (key ++ value) by
        simp [List.append_assoc]]
    exact List.take_left' (by simp [beBytes_length])
  have hsz2 : (file2.drop 12).take 8 = beBytes 4 key.length ++ beBytes 4 value.length := by
    rw [hsz, hwin]
  have hksz : (file2.drop 12).take 4 = beBytes 4 key.length := by
    have h1 : (file2.drop 12).take 4 = ((file2.drop 12).take 8).take 4 := by
      rw [List.take_take]
      norm_num
    rw [h1, hsz2]
    exact List.take_left' (beBytes_length 4 key.length)
  have hvsz : (file2.drop 16).take 4 = beBytes 4 value.length := by
    have h1 : (file2.drop 16).take 4 = ((file2.drop 12).take 8).drop 4 := by
      rw [List.drop_take, List.drop_drop]
    rw [h1, hsz2]
    exact List.drop_left' (beBytes_length 4 key.length)
  have h2to32 : (256 : Nat) ^ 4 = 2 ^ 32 := by norm_num
  have hkomp : beVal ((file2.drop 12).take 4) = key.length := by
    rw [hksz]
    exact beVal_beBytes 4 key.length (by omega)
  have hvcomp : beVal ((file2.drop 16).take 4) = value.length := by
    rw [hvsz]
    exact beVal_beBytes 4 value.length (by omega)
  have hA : logGetEntry (logFromBytes file2) = file2 := by
    unfold logFromBytes logGetEntry
    simp only [hkomp, hvcomp]
    rw [if_pos ⟨hvl, hvl2⟩, ← hksz, ← hvsz]
    have t1 : file2.take 8 ++ (file2.drop 8).take 4 = file2.take 12 := by
      rw [← List.take_add]
    have t2 : file2.take 12 ++ (file2.drop 12).take 4 = file2.take 16 := by
      rw [← List.take_add]
    have t3 : file2.take 16 ++ (file2.drop 16).take 4 = file2.take 20 := by
      rw [← List.take_add]
    have t4 : file2.take 20 ++ (file2.drop 20).take key.length =
        file2.take (20 + key.length) := by
      rw [← List.take_add]
    have t5 : file2.take (20 + key.length) ++
        (file2.drop (20 + key.length)).take value.length =
        file2.take (20 + key.length + value.length) := by
      rw [← List.take_add]
    rw [List.append_assoc, List.append_assoc, List.append_assoc, List.append_assoc,
      ← List.append_assoc, t1, ← List.append_assoc, t2, ← List.append_assoc, t3,
      ← List.append_assoc, t4, t5, ← hL, List.take_length]
  have hcrcval : file2.take 8 = hash payload := by
    rw [hcrc, hfile]
    exact List.take_left' hh8
  have hfd : (mkLogEntryBytes hash tstamp key value).drop 8 = payload := by
    rw [hfile]
    exact List.drop_left' hh8
  have hcheck : check_crc hash (logFromBytes file2).crc
      ((logGetEntry (logFromBytes file2)).drop 8) = false := by
    unfold check_crc
    rw [hA]
    have hcrcfield : (logFromBytes file2).crc = file2.take 8 := rfl
    rw [hcrcfield, hcrcval]
    apply beq_eq_false_iff_ne.mpr
    intro heq
    have hdrop : file2.drop 8 = payload := hcoll (file2.drop 8) heq.symm
    apply hne
    calc file2 = file2.take 8 ++ file2.drop 8 := (List.take_append_drop 8 file2).symm
      _ = (mkLogEntryBytes hash tstamp key value).take 8 ++
          (mkLogEntryBytes hash tstamp key value).drop 8 := by rw [hcrc, hdrop, hfd]
      _ = mkLogEntryBytes hash tstamp key value := List.take_append_drop 8 _
  have hr12 : readExact file2 (0 + 12) 4 = .ok ((file2.drop 12).take 4) := by
    unfold readExact
    rw [if_pos (by omega)]
  have hr16 : readExact file2 (0 + 16) 4 = .ok ((file2.drop 16).take 4) := by
    unfold readExact
    rw [if_pos (by omega)]
  have hr0 : readExact file2 0 (20 + key.length + value.length) = .ok file2 := by
    unfold readExact
    rw [if_pos (by omega)]
    rw [List.drop_zero, ← hL, List.take_length]
  have hmain : read_entry hash file2 0 = .ok none := by
    unfold read_entry
    simp only [hr12, hr16, except_bind_ok, hkomp, hvcomp, Nat.mod_eq_of_lt hsum, hr0,
      hcheck, Bool.false_eq_true, if_false]
  refine ⟨hmain, ?_⟩
  unfold bitcaskGetAt
  rw [hmain]

/-- Witness for C5: the corrupted example file satisfies every
hypothesis of the amended theorem, which then gives both `Ok(None)`
results. -/
theorem c5_corruption_silent_miss_witness :
    c5fileCorrupt ≠ mkLogEntryBytes c5hash [1, 2, 3, 4] [107] [5] ∧
    read_entry c5hash c5fileCorrupt 0 = .ok none ∧
    bitcaskGetAt c5hash c5fileCorrupt 0 = .ok none :=
  ⟨by decide,
    (c5_corruption_silent_miss c5hash [1, 2, 3, 4] [107] [5] c5fileCorrupt
      rfl (by decide) (by decide) (by decide) (by decide) (by decide)
      (fun l h => by
        by_cases hl : l = c5payload
        · exact hl
        · exfalso
          rw [show c5hash ([1, 2, 3, 4] ++ beBytes 4 ([107] : List Nat).length ++
              beBytes 4 ([5] : List Nat).length ++ [107] ++ [5]) = beBytes 8 0 from by decide,
            c5hash, if_neg hl] at h
          exact absurd h (by decide))
      (by decide) (by decide) (by decide) (by decide)).1,
    (c5_corruption_silent_miss c5hash [1, 2, 3, 4] [107] [5] c5fileCorrupt
      rfl (by decide) (by decide) (by decide) (by decide) (by decide)
      (fun l h => by
        by_cases hl : l = c5payload
        · exact hl
        · exfalso
          rw [show c5hash ([1, 2, 3, 4] ++ beBytes 4 ([107] : List Nat).length ++
              beBytes 4 ([5] : List Nat).length ++ [107] ++ [5]) = beBytes 8 0 from by decide,
            c5hash, if_neg hl] at h
          exact absurd h (by decide))
      (by decide) (by decide) (by decide) (by decide)).2⟩

/- ## Claim C10 -/

/-- `BTreeMap::insert` on the keydir: sorted insert or overwrite. -/
def kdSet (key : Bytes) (pos : Nat) : List (Bytes × Nat) → List (Bytes × Nat)
  | [] => [(key, pos)]
  | p :: ps =>
    if bytesLt key p.1 then (key, pos) :: p :: ps
    else if key = p.1 then (key, pos) :: ps
    else p :: kdSet key pos ps

/-- `BTreeMap::remove` on the keydir. -/
def kdRemove (key : Bytes) (kd : List (Bytes × Nat)) : List (Bytes × Nat) :=
  kd.filter fun p => !(p.1 == key)

/-- `BTreeMap::get` on the keydir. -/
def kdGet (key : Bytes) (kd : List (Bytes × Nat)) : Option Nat :=
  match kd.find? (fun p => p.1 == key) with
  | some p => some p.2
  | none => none

/-- Embeds the scan loop of `BitCask::build_key_dir`
(src/src/storage/bitcask.rs lines 85-141): while `pos < file_len`, read
`ksz` at `pos + 12`, the key at `pos + 20`, and `value_sz` at `pos + 16`
as an `i32`; a positive `value_sz` inserts `key ↦ pos` and advances by
`20 + ksz + value_sz`, anything else (the tombstone `-1` included)
removes the key and advances by `20 + ksz`.  On a read error the source
prints `ERROR` and loops forever without advancing; that is unreachable
for the well-formed files considered here and is modelled as stopping.
The fuel argument only bounds the iteration count. -/
def buildKeyDir (file : List Nat) : Nat → Nat → List (Bytes × Nat) → List (Bytes × Nat)
  | 0, _, kd => kd
  | fuel + 1, pos, kd =>
    if pos < file.length then
      match readExact file (pos + 12) 4 with
      | .error _ => kd
      | .ok ksz_v =>
        let ksz := beVal ksz_v
        match readExact file (pos + 20) ksz, readExact file (pos + 16) 4 with
        | .ok key, .ok vsz_v =>
          let value_sz := beVal vsz_v
          if 0 < value_sz ∧ value_sz < 2 ^ 31 then
            buildKeyDir file fuel (pos + 20 + ksz + value_sz) (kdSet key pos kd)
          else
            buildKeyDir file fuel (pos + 20 + ksz) (kdRemove key kd)
        | _, _ => kd
    else kd

/-- Rebuilding the keydir on open, from an empty map. -/
def bitcaskOpenKeyDir (file : List Nat) : List (Bytes × Nat) :=
  buildKeyDir file (file.length + 1) 0 []

/-- `BitCask::get` including the keydir lookup (lines 281-306): a keydir
miss is `Ok(None)`. -/
def bitcaskGet (hash : List Nat → List Nat) (file : List Nat) (kd : List (Bytes × Nat))
    (key : Bytes) : Except Unit (Option (List Nat)) :=
  match kdGet key kd with
  | none => .ok none
  | some pos => bitcaskGetAt hash file pos

/-- Embeds the record written by `BitCask::delete` (lines 308-313): the
body calls `self.set(&key, &[])`, so the on-disk record is exactly the
empty-value set record; afterwards it drops the key from the in-memory
keydir. -/
def bitcaskDeleteRecord (hash : List Nat → List Nat) (tstamp key : List Nat) : List Nat :=
  mkLogEntryBytes hash tstamp key []

/-- The field layout of a freshly written record: its length and the
`ksz`, `value_sz` and key windows at offsets 12, 16 and 20. -/
theorem mkLog_windows (hash : List Nat → List Nat) (tstamp key value : List Nat)
    (ht : tstamp.length = 4) (hh8 : ∀ l, (hash l).length = 8) :
    (mkLogEntryBytes hash tstamp key value).length = 20 + key.length + value.length ∧
    ((mkLogEntryBytes hash tstamp key value).drop 12).take 4 = beBytes 4 key.length ∧
    ((mkLogEntryBytes hash tstamp key value).drop 16).take 4 =
      beBytes 4 (if value.length = 0 then 2 ^ 32 - 1 else value.length) ∧
    ((mkLogEntryBytes hash tstamp key value).drop 20).take key.length = key := by
  set vsz := if value.length = 0 then 2 ^ 32 - 1 else value.length with hvszdef
  have hfile : mkLogEntryBytes hash tstamp key value =
      hash (tstamp ++ beBytes 4 key.length ++ beBytes 4 vsz ++ key ++ value) ++
      (tstamp ++ beBytes 4 key.length ++ beBytes 4 vsz ++ key ++ value) := rfl
  set p := tstamp ++ beBytes 4 key.length ++ beBytes 4 vsz ++ key ++ value with hpdef
  have hplen : p.length = 12 + key.length + value.length := by
    simp [hpdef, beBytes_length, ht]
    omega
  refine ⟨?_, ?_, ?_, ?_⟩
  · rw [hfile]
    simp [hh8, hplen]
    omega
  · rw [hfile]
    have hsplit : hash p ++ p = (hash p ++ tstamp) ++
        (beBytes 4 key.length ++ (beBytes 4 vsz ++ (key ++ value))) := by
      simp [hpdef, List.append_assoc]
    rw [hsplit, List.drop_left' (by simp [hh8, ht])]
    exact List.take_left' (beBytes_length 4 key.length)
  · rw [hfile]
    have hsplit : hash p ++ p = ((hash p ++ tstamp) ++ beBytes 4 key.length) ++
        (beBytes 4 vsz ++ (key ++ value)) := by
      simp [hpdef, List.append_assoc]
    rw [hsplit, List.drop_left' (by simp [hh8, ht, beBytes_length])]
    exact List.take_left' (beBytes_length 4 vsz)
  · rw [hfile]
    have hsplit : hash p ++ p = (((hash p ++ tstamp) ++ beBytes 4 key.length) ++
        beBytes 4 vsz) ++ (key ++ value) := by
      simp [hpdef, List.append_assoc]
    rw [hsplit, List.drop_left' (by simp [hh8, ht, beBytes_length])]
    exact List.take_left' rfl

/-- A replay that has consumed the whole file leaves the keydir as it
is, whatever fuel remains. -/
theorem buildKeyDir_at_end (file : List Nat) (f : Nat) (kd : List (Bytes × Nat)) :
    buildKeyDir file f file.length kd = kd := by
  cases f with
  | zero => rfl
  | succ m =>
    unfold buildKeyDir
    rw [if_neg (by omega)]

/-- C10: an empty-value `set` writes a tombstone — `value_sz` is the
`i32` `-1` pattern exactly when the value length is 0 — and replaying
that record while rebuilding the keydir on open removes the key, so a
reopen after `set(k, [])` makes `get(k)` return `Ok(None)`; a non-empty
record replays as an insert; and `delete(k)` writes byte-for-byte the
same record as `set(k, [])`. -/
theorem c10_empty_value_is_delete (hash : List Nat → List Nat) (tstamp key value : List Nat)
    (ht : tstamp.length = 4) (hh8 : ∀ l, (hash l).length = 8)
    (hkl : key.length < 2 ^ 32) (hvl2 : value.length < 2 ^ 31) :
    (((mkLogEntryBytes hash tstamp key []).drop 16).take 4 = beBytes 4 (2 ^ 32 - 1) ∧
     (value ≠ [] →
       ((mkLogEntryBytes hash tstamp key value).drop 16).take 4 = beBytes 4 value.length)) ∧
    (∀ kd, buildKeyDir (mkLogEntryBytes hash tstamp key [])
        ((mkLogEntryBytes hash tstamp key []).length + 1) 0 kd = kdRemove key kd) ∧
    (value ≠ [] →
      ∀ kd, buildKeyDir (mkLogEntryBytes hash tstamp key value)
        ((mkLogEntryBytes hash tstamp key value).length + 1) 0 kd = kdSet key 0 kd) ∧
    bitcaskGet hash (mkLogEntryBytes hash tstamp key [])
      (bitcaskOpenKeyDir (mkLogEntryBytes hash tstamp key [])) key = .ok none ∧
    bitcaskDeleteRecord hash tstamp key = mkLogEntryBytes hash tstamp key [] := by
  have h2to32 : (256 : Nat) ^ 4 = 2 ^ 32 := by norm_num
  obtain ⟨hlenE, hkszE, hvszE, hkeyE⟩ := mkLog_windows hash tstamp key [] ht hh8
  obtain ⟨hlenV, hkszV, hvszV, hkeyV⟩ := mkLog_windows hash tstamp key value ht hh8
  rw [if_pos (show ([] : List Nat).length = 0 from rfl)] at hvszE
  have hlenE2 : (mkLogEntryBytes hash tstamp key []).length = 20 + key.length := by
    rw [hlenE]
    simp
  have hbk : beVal (beBytes 4 key.length) = key.length :=
    beVal_beBytes 4 key.length (by omega)
  have hbt : beVal (beBytes 4 (2 ^ 32 - 1)) = 2 ^ 32 - 1 :=
    beVal_beBytes 4 (2 ^ 32 - 1) (by omega)
  have hremove : ∀ kd, buildKeyDir (mkLogEntryBytes hash tstamp key [])
      ((mkLogEntryBytes hash tstamp key []).length + 1) 0 kd = kdRemove key kd := by
    intro kd
    set file := mkLogEntryBytes hash tstamp key [] with hfdef
    have hr12 : readExact file (0 + 12) 4 = .ok (beBytes 4 key.length) := by
      unfold readExact
      rw [if_pos (by omega)]
      simp only [Nat.zero_add]
      rw [hkszE]
    have hr20 : readExact file (0 + 20) key.length = .ok key := by
      unfold readExact
      rw [if_pos (by omega)]
      simp only [Nat.zero_add]
      rw [hkeyE]
    have hr16 : readExact file (0 + 16) 4 = .ok (beBytes 4 (2 ^ 32 - 1)) := by
      unfold readExact
      rw [if_pos (by omega)]
      simp only [Nat.zero_add]
      rw [hvszE]
    show buildKeyDir file (file.length + 1) 0 kd = kdRemove key kd
    unfold buildKeyDir
    rw [if_pos (by omega)]
    simp only [hr12, hbk, hr20, hr16, hbt]
    rw [if_neg (fun h => absurd h.2 (by norm_num))]
    rw [show 0 + 20 + key.length = file.length by omega]
    exact buildKeyDir_at_end file file.length (kdRemove key kd)
  refine ⟨⟨hvszE, ?_⟩, hremove, ?_, ?_, rfl⟩
  · intro hvne
    rw [hvszV, if_neg (by simpa using hvne)]
  · intro hvne kd
    have hvpos : 0 < value.length := List.length_pos.mpr hvne
    have hbv : beVal (beBytes 4 value.length) = value.length :=
      beVal_beBytes 4 value.length (by omega)
    have hvszV2 : ((mkLogEntryBytes hash tstamp key value).drop 16).take 4 =
        beBytes 4 value.length := by
      rw [hvszV, if_neg (by omega)]
    set file := mkLogEntryBytes hash tstamp key value with hfdef
    have hr12 : readExact file (0 + 12) 4 = .ok (beBytes 4 key.length) := by
      unfold readExact
      rw [if_pos (by omega)]
      simp only [Nat.zero_add]
      rw [hkszV]
    have hr20 : readExact file (0 + 20) key.length = .ok key := by
      unfold readExact
      rw [if_pos (by omega)]
      simp only [Nat.zero_add]
      rw [hkeyV]
    have hr16 : readExact file (0 + 16) 4 = .ok (beBytes 4 value.length) := by
      unfold readExact
      rw [if_pos (by omega)]
      simp only [Nat.zero_add]
      rw [hvszV2]
    show buildKeyDir file (file.length + 1) 0 kd = kdSet key 0 kd
    unfold buildKeyDir
    rw [if_pos (by omega)]
    simp only [hr12, hbk, hr20, hr16, hbv]
    rw [if_pos ⟨hvpos, hvl2⟩]
    rw [show 0 + 20 + key.length + value.length = file.length by omega]
    exact buildKeyDir_at_end file file.length (kdSet key 0 kd)
  · unfold bitcaskGet bitcaskOpenKeyDir kdGet
    rw [hremove []]
    rfl

/-- Witness for C10: a concrete fixed-window hash, timestamp
`[1,2,3,4]`, key `[107]` and value `[5]` satisfy every hypothesis, and
the reopen-after-empty-set lookup indeed returns `Ok(None)`. -/
theorem c10_empty_value_is_delete_witness :
    ([1, 2, 3, 4] : List Nat).length = 4 ∧
    bitcaskGet (fun _ => beBytes 8 0) (mkLogEntryBytes (fun _ => beBytes 8 0) [1, 2, 3, 4] [107] [])
      (bitcaskOpenKeyDir (mkLogEntryBytes (fun _ => beBytes 8 0) [1, 2, 3, 4] [107] []))
      [107] = .ok none :=
  ⟨rfl,
    (c10_empty_value_is_delete (fun _ => beBytes 8 0) [1, 2, 3, 4] [107] [5]
      rfl (fun _ => beBytes_length 8 0) (by decide) (by decide)).2.2.2.1⟩

/- ## Configuration (src/src/cfg/mod.rs, src/src/storage/bitcask.rs) -/

/-- Embeds `cfg::get_max_size` (src/src/cfg/mod.rs lines 23-26): the byte
threshold computed from the `single_file_limit` configuration value is
`single_file_limit * 1024 * 1024`. -/
def get_max_size (single_file_limit : Nat) : Nat :=
  single_file_limit * 1024 * 1024

/-- Embeds `BitCask::check_size_limit` (src/src/storage/bitcask.rs lines
166-168): the active file triggers compaction/rollover when its length is
at least `get_max_size`. -/
def check_size_limit (file_len : Nat) (single_file_limit : Nat) : Bool :=
  file_len ≥ get_max_size single_file_limit

/-- C9: the claim states the threshold is `single_file_limit` GiB, i.e.
`single_file_limit * 1024^3` bytes, and that a set only considers
compaction or rollover at or above that size.  The code multiplies by
`1024 * 1024` only (MiB): with `single_file_limit = 1` the check already
fires at a 1 MiB (1048576-byte) active file, far below `1024^3` bytes,
contradicting the configuration field documentation (`单位：GiB`). -/
theorem c9_threshold_is_mib_not_gib :
    get_max_size 1 = 1048576 ∧
    check_size_limit 1048576 1 = true ∧
    1048576 < 1 * (1024 * 1024 * 1024) := by
  refine ⟨rfl, by decide, by decide⟩

end MiniDB
